import Mathlib

/-!
# Verification of the STL fluid-volume tool core (`src/stl_reader.h`)

Shallow embedding of the geometric classification-and-repair pipeline of
`StlReader`: the Möller–Trumbore ray/triangle intersector, the even-hit
interior classifier, the boundary capper (`addCaps`), the mesh cleaner
(`cleanMesh`), the watertightness auditor (`checkWatertight`) and the
signed-volume integral (`volume`).

Modelling conventions:
* `float`/`double` arithmetic is idealized as exact arithmetic over `ℚ`.
* `std::sqrt` is passed to every function that needs it as an explicit
  parameter `s : ℚ → ℚ`; theorems are stated generically in `s` wherever the
  program behaviour does not depend on the numeric value of a square root.
  `ratSqrt` below is a concrete executable stand-in used for closed
  (witness / counterexample) statements; it returns the exact square root on
  perfect squares (all square roots arising in the closed statements are
  exact) and a positive number on every positive input.
* `std::vector` becomes `List`; `std::map`/`std::set` lookups become
  list-membership queries, and iteration over a `std::map` (which is sorted
  by key) is modelled by sorting the key list.
* machine `size_t`/`int` counters become `ℕ`.
-/

namespace StlTool

/-- 3-component vector, `StlReader::Vec3` (coordinates idealized as `ℚ`). -/
structure Vec3 where
  x : ℚ
  y : ℚ
  z : ℚ
deriving DecidableEq

/-- A raw (unindexed) triangle, `StlReader::Triangle`. -/
structure Triangle where
  normal : Vec3
  v0 : Vec3
  v1 : Vec3
  v2 : Vec3
deriving DecidableEq

/-- An index triple into the vertex table, `StlReader::IndexedTri`. -/
structure IndexedTri where
  v0 : ℕ
  v1 : ℕ
  v2 : ℕ
deriving DecidableEq

/-- The indexed-mesh state of a `StlReader` after `removeDuplicateVertices()`:
the merged vertex table `vertices_` and the index triples `indexedTriangles_`. -/
structure Mesh where
  vertices : List Vec3
  indexedTriangles : List IndexedTri
deriving DecidableEq

def v3zero : Vec3 := ⟨0, 0, 0⟩

def triDefault : Triangle := ⟨v3zero, v3zero, v3zero, v3zero⟩

def idtDefault : IndexedTri := ⟨0, 0, 0⟩

def vsub (a b : Vec3) : Vec3 := ⟨a.x - b.x, a.y - b.y, a.z - b.z⟩

def vneg (a : Vec3) : Vec3 := ⟨-a.x, -a.y, -a.z⟩

def vdiv (a : Vec3) (q : ℚ) : Vec3 := ⟨a.x / q, a.y / q, a.z / q⟩

/-- Cross product, written componentwise exactly as in the source. -/
def cross (a b : Vec3) : Vec3 :=
  ⟨a.y * b.z - a.z * b.y, a.z * b.x - a.x * b.z, a.x * b.y - a.y * b.x⟩

def dot (a b : Vec3) : ℚ := a.x * b.x + a.y * b.y + a.z * b.z

/-- Squared length `nx*nx + ny*ny + nz*nz` (the argument of `std::sqrt`). -/
def norm2 (a : Vec3) : ℚ := a.x * a.x + a.y * a.y + a.z * a.z

/-- The `1e-10f` epsilon used by `addCaps`, `cleanMesh` and `checkWatertight`. -/
def eps10 : ℚ := 1 / 10 ^ 10

/-- The `1e-6f` epsilon of the Möller–Trumbore intersector. -/
def mtEps : ℚ := 1 / 10 ^ 6

/-- `StlReader::getTriangle`: reconstruct positions from the vertex table and
recompute the normal from geometry, normalizing when the length is positive. -/
def getTriangle (s : ℚ → ℚ) (m : Mesh) (i : ℕ) : Triangle :=
  let id := m.indexedTriangles.getD i idtDefault
  let a := m.vertices.getD id.v0 v3zero
  let b := m.vertices.getD id.v1 v3zero
  let c := m.vertices.getD id.v2 v3zero
  let n := cross (vsub b a) (vsub c a)
  let len := s (norm2 n)
  ⟨if 0 < len then vdiv n len else n, a, b, c⟩

/-- `StlReader::volume`: signed tetrahedron sum from the origin, absolute value. -/
def volume (m : Mesh) : ℚ :=
  let sum := (m.indexedTriangles.map fun id =>
    let a := m.vertices.getD id.v0 v3zero
    let b := m.vertices.getD id.v1 v3zero
    let c := m.vertices.getD id.v2 v3zero
    (a.x * (b.y * c.z - b.z * c.y) + a.y * (b.z * c.x - b.x * c.z) +
      a.z * (b.x * c.y - b.y * c.x)) / 6).sum
  if sum < 0 then -sum else sum

/-- `StlReader::rayIntersect` (Möller–Trumbore): `some t` when the ray from
`ro` in direction `rd` hits triangle `i` at distance `t`, `none` on a miss. -/
def rayIntersect (s : ℚ → ℚ) (m : Mesh) (i : ℕ) (ro rd : Vec3) : Option ℚ :=
  let t := getTriangle s m i
  let e1 := vsub t.v1 t.v0
  let e2 := vsub t.v2 t.v0
  let h := cross rd e2
  let a := dot e1 h
  if -mtEps < a ∧ a < mtEps then none
  else
    let f := 1 / a
    let sv := vsub ro t.v0
    let u := f * dot sv h
    if u < 0 ∨ 1 < u then none
    else
      let q := cross sv e1
      let v := f * dot rd q
      if v < 0 ∨ 1 < u + v then none
      else
        let tt := f * dot e2 q
        if tt ≤ mtEps then none else some tt

/-- Lexicographic order on `(distance, facet index)` pairs: the order used by
`std::sort` on `std::pair<float, size_t>` in `computeFluidMesh`. -/
def pairLe (p q : ℚ × ℕ) : Prop := p.1 < q.1 ∨ (p.1 = q.1 ∧ p.2 ≤ q.2)

instance pairLe.decRel : DecidableRel pairLe := fun p q => by
  unfold pairLe; infer_instance

instance pairLe.isTotal : IsTotal (ℚ × ℕ) pairLe := by
  constructor
  intro a b
  rcases lt_trichotomy a.1 b.1 with h | h | h
  · exact Or.inl (Or.inl h)
  · rcases Nat.le_total a.2 b.2 with h2 | h2
    · exact Or.inl (Or.inr ⟨h, h2⟩)
    · exact Or.inr (Or.inr ⟨h.symm, h2⟩)
  · exact Or.inr (Or.inl h)

instance pairLe.isTrans : IsTrans (ℚ × ℕ) pairLe := by
  constructor
  rintro a b c (h | ⟨h, h2⟩) (g | ⟨g, g2⟩)
  · exact Or.inl (h.trans g)
  · exact Or.inl (g ▸ h)
  · exact Or.inl (h ▸ g)
  · exact Or.inr ⟨h.trans g, h2.trans g2⟩

instance pairLe.isAntisymm : IsAntisymm (ℚ × ℕ) pairLe := by
  constructor
  rintro ⟨a1, a2⟩ ⟨b1, b2⟩ hab hba
  dsimp only [pairLe] at hab hba
  simp only [Prod.mk.injEq]
  rcases hab with h | ⟨h, h2⟩ <;> rcases hba with g | ⟨g, g2⟩
  · exact absurd (h.trans g) (lt_irrefl a1)
  · exfalso; linarith
  · exfalso; linarith
  · exact ⟨h, Nat.le_antisymm h2 g2⟩

/-- Centroid of a triangle's three vertex positions. -/
def centroidOf (t : Triangle) : Vec3 :=
  ⟨(t.v0.x + t.v1.x + t.v2.x) / 3, (t.v0.y + t.v1.y + t.v2.y) / 3,
    (t.v0.z + t.v1.z + t.v2.z) / 3⟩

/-- The hit list collected for facet `i` in `computeFluidMesh`: pairs
`(t, k)` for every other facet `k` that the outward centroid ray hits at
distance `t > tMin`, in facet-index order (before sorting). -/
def facetHits (s : ℚ → ℚ) (m : Mesh) (originOffset tMin : ℚ) (i : ℕ) :
    List (ℚ × ℕ) :=
  let tri := getTriangle s m i
  let c := centroidOf tri
  let ro : Vec3 := ⟨c.x + originOffset * tri.normal.x,
    c.y + originOffset * tri.normal.y, c.z + originOffset * tri.normal.z⟩
  let rd := tri.normal
  ((List.range m.indexedTriangles.length).filter fun k => decide (k ≠ i)).filterMap
    fun k =>
      (rayIntersect s m k ro rd).bind fun t =>
        if tMin < t then some (t, k) else none

/-- The distinct-hit counter loop of `computeFluidMesh`: walk the (sorted)
distances, counting a hit and updating `lastT` exactly when the distance
exceeds `lastT` by more than `tEps`. -/
def countDistinct (tEps : ℚ) : ℚ → List ℚ → ℕ
  | _, [] => 0
  | last, t :: r =>
    if tEps < t - last then countDistinct tEps t r + 1 else countDistinct tEps last r

/-- Distinct-hit count for facet `i`: sort hit pairs with `std::sort`'s
lexicographic pair order, then run the greedy counter with the `-1e30f`
sentinel as initial `lastT`. -/
def distinctHits (s : ℚ → ℚ) (m : Mesh) (originOffset tMin tEps : ℚ) (i : ℕ) : ℕ :=
  countDistinct tEps (-(10 ^ 30))
    ((List.insertionSort pairLe (facetHits s m originOffset tMin i)).map Prod.fst)

/-- The even-hit facet subset `evenHitTriangles` of `computeFluidMesh`:
facets whose distinct-hit count is positive with lowest bit clear. -/
def evenHits (s : ℚ → ℚ) (m : Mesh) (originOffset tMin tEps : ℚ) : List ℕ :=
  (List.range m.indexedTriangles.length).filter fun i =>
    let dh := distinctHits s m originOffset tMin tEps i
    decide (0 < dh) && decide (dh &&& 1 = 0)

/-- Canonical undirected edge key `(min, max)` (anonymous-namespace `edgeKey`). -/
def edgeKey (a b : ℕ) : ℕ × ℕ := (min a b, max a b)

/-- A directed boundary-edge occurrence with its owning triangle index
(`addCaps`'s local `DirectedEdge`). -/
structure DirectedEdge where
  src : ℕ
  dst : ℕ
  triIdx : ℕ
deriving DecidableEq

/-- All directed edge occurrences of the subset, in the push order of
`addCaps`'s first loop (per triangle: `v0→v1`, `v1→v2`, `v2→v0`). -/
def subsetDirectedEdges (m : Mesh) (tis : List ℕ) : List DirectedEdge :=
  (tis.filter fun ti => decide (ti < m.indexedTriangles.length)).flatMap fun ti =>
    let id := m.indexedTriangles.getD ti idtDefault
    [⟨id.v0, id.v1, ti⟩, ⟨id.v1, id.v2, ti⟩, ⟨id.v2, id.v0, ti⟩]

/-- Lexicographic order on edge keys: the iteration order of the
`std::map` keyed by `std::pair<size_t, size_t>`. -/
def keyLe (p q : ℕ × ℕ) : Prop := p.1 < q.1 ∨ (p.1 = q.1 ∧ p.2 ≤ q.2)

instance keyLe.decRel : DecidableRel keyLe := fun p q => by
  unfold keyLe; infer_instance

/-- `addCaps`'s `boundaryEdges`: iterate the undirected-edge groups in sorted
key order and keep the single directed occurrence of each group of size 1. -/
def boundaryEdges (m : Mesh) (tis : List ℕ) : List DirectedEdge :=
  let des := subsetDirectedEdges m tis
  let keys := List.insertionSort keyLe
    ((des.map fun e => edgeKey e.src e.dst).dedup)
  keys.filterMap fun k =>
    match des.filter fun e => decide (edgeKey e.src e.dst = k) with
    | [e] => some e
    | _ => none

/-- `addCaps`'s `nextMap[v]`: successor `(to, triIdx)` pairs of the boundary
edges leaving `v`, in `boundaryEdges` order. -/
def nextList (bes : List DirectedEdge) (v : ℕ) : List (ℕ × ℕ) :=
  (bes.filter fun e => decide (e.src = v)).map fun e => (e.dst, e.triIdx)

/-- Arithmetic centroid of the loop's vertices. -/
def loopCentroid (m : Mesh) (loop : List ℕ) : Vec3 :=
  let n : ℚ := loop.length
  ⟨(loop.map fun vi => (m.vertices.getD vi v3zero).x).sum / n,
    (loop.map fun vi => (m.vertices.getD vi v3zero).y).sum / n,
    (loop.map fun vi => (m.vertices.getD vi v3zero).z).sum / n⟩

/-- Position of the `i`-th loop vertex (`vertices_[loop[i]]`). -/
def loopVert (m : Mesh) (loop : List ℕ) (i : ℕ) : Vec3 :=
  m.vertices.getD (loop.getD i 0) v3zero

/-- The raw (unnormalized) cap normal of the `i`-th loop edge `(a, b)` with
`a = loop[i]`, `b = loop[(i+1) mod |loop|]`: `(va - C) × (vb - C)`. -/
def capCross (m : Mesh) (loop : List ℕ) (i : ℕ) : Vec3 :=
  cross (vsub (loopVert m loop i) (loopCentroid m loop))
    (vsub (loopVert m loop ((i + 1) % loop.length)) (loopCentroid m loop))

/-- `addCaps`'s `capOneLoop`: fan-cap a loop from its centroid, orienting each
cap by the sign of its normal's dot product with the normal of the single
representative triangle `triIdxForNormal`; an edge whose cap normal has
length at most `1e-10` is skipped. -/
def capOneLoop (s : ℚ → ℚ) (m : Mesh) (loop : List ℕ) (triIdxForNormal : ℕ) :
    List Triangle :=
  if loop.length < 3 then []
  else
    let adjTri := getTriangle s m triIdxForNormal
    (List.range loop.length).filterMap fun i =>
      let nv := capCross m loop i
      let len := s (norm2 nv)
      if len ≤ eps10 then none
      else
        let nn := vdiv nv len
        let d := dot nn adjTri.normal
        if 0 ≤ d then
          some ⟨nn, loopCentroid m loop, loopVert m loop i,
            loopVert m loop ((i + 1) % loop.length)⟩
        else
          some ⟨vneg nn, loopCentroid m loop,
            loopVert m loop ((i + 1) % loop.length), loopVert m loop i⟩

/-- The mutable state of one trace of `addCaps`'s `for(;;)`/`while` loops:
the set of used directed edges, the current open path with the owning
triangle recorded per path entry, and the caps emitted so far by sub-loop
splits. -/
structure TraceState where
  used : List (ℕ × ℕ)
  loop : List ℕ
  triOnLoop : List ℕ
  caps : List Triangle
deriving DecidableEq

/-- The successor search of the `while` loop: first unused outgoing boundary
edge of `v` in `nextMap[v]` order. -/
def pickNext (used : List (ℕ × ℕ)) (bes : List DirectedEdge) (v : ℕ) :
    Option (ℕ × ℕ) :=
  (nextList bes v).find? fun p => decide ((v, p.1) ∉ used)

/-- The `while (to != start)` loop of `addCaps`, with explicit fuel (`none`
means the fuel ran out; `addCaps_total` below shows the fuel used by
`addCaps` always suffices).  Mirrors the source exactly, including the
`if (nextV == 0) break;` dead-end test that also fires when the chosen
successor is the legitimate vertex index `0`; a dead end simply exits,
leaving the open path in the state for the caller to cap. -/
def traceWhile (s : ℚ → ℚ) (m : Mesh) (bes : List DirectedEdge) (start : ℕ) :
    ℕ → ℕ → TraceState → Option TraceState
  | 0, _, _ => none
  | fuel + 1, cur, st =>
    if cur = start then some st
    else
      match pickNext st.used bes cur with
      | none => some st
      | some (nv, nt) =>
        if nv = 0 then some st
        else if nv ∈ st.loop then
          if nv = start then some { st with used := (cur, nv) :: st.used }
          else
            let idx := st.loop.indexOf nv
            traceWhile s m bes start fuel nv
              { used := (cur, nv) :: st.used,
                loop := st.loop.take (idx + 1),
                triOnLoop := st.triOnLoop.take (idx + 1),
                caps := st.caps ++
                  capOneLoop s m (st.loop.drop idx) (st.triOnLoop.getD idx 0) }
        else
          traceWhile s m bes start fuel nv
            { used := (cur, nv) :: st.used,
              loop := st.loop ++ [nv],
              triOnLoop := st.triOnLoop ++ [nt],
              caps := st.caps }

/-- The outer `for(;;)` loop of `addCaps`: pick the first unused boundary
edge, trace from it, then cap the resulting path; returns the emitted cap
triangles and the final used-edge set. -/
def capAllLoops (s : ℚ → ℚ) (m : Mesh) (bes : List DirectedEdge) :
    ℕ → List (ℕ × ℕ) → List Triangle → Option (List Triangle × List (ℕ × ℕ))
  | 0, _, _ => none
  | fuel + 1, used, acc =>
    match bes.find? fun e => decide ((e.src, e.dst) ∉ used) with
    | none => some (acc, used)
    | some e =>
      match traceWhile s m bes e.src (bes.length + 1) e.dst
          ⟨(e.src, e.dst) :: used, [e.src, e.dst], [e.triIdx, e.triIdx], []⟩ with
      | none => none
      | some st =>
        capAllLoops s m bes fuel st.used
          (acc ++ st.caps ++ capOneLoop s m st.loop (st.triOnLoop.getD 0 0))

/-- `StlReader::addCaps`: the in-range subset triangles followed by all cap
triangles.  `none` would mean fuel exhaustion; `addCaps_total` shows this
never happens. -/
def addCaps (s : ℚ → ℚ) (m : Mesh) (tis : List ℕ) : Option (List Triangle) :=
  let base := (tis.filter fun ti =>
    decide (ti < m.indexedTriangles.length)).map (getTriangle s m)
  if m.vertices = [] then some base
  else
    let bes := boundaryEdges m tis
    if bes = [] then some base
    else (capAllLoops s m bes (bes.length + 1) [] []).map fun r => base ++ r.1

/-- The cap flip of `computeFluidMesh`: swap `v1`/`v2` and negate the normal. -/
def flipTri (t : Triangle) : Triangle := ⟨vneg t.normal, t.v0, t.v2, t.v1⟩

/-- The fluid triangle list right after the cap-flipping loop of
`computeFluidMesh` (before `cleanMesh` runs): entries at index `≥` the
even-hit subset length are flipped. -/
def fluidPreClean (s : ℚ → ℚ) (m : Mesh) (originOffset tMin tEps : ℚ) :
    Option (List Triangle) :=
  let ehs := evenHits s m originOffset tMin tEps
  (addCaps s m ehs).map fun out =>
    (List.range out.length).map fun i =>
      if i < ehs.length then out.getD i triDefault
      else flipTri (out.getD i triDefault)

/-- The structured content of `cleanMesh`'s report (`noTriangles` records the
early `"No triangles."` return). -/
structure CleanReport where
  noTriangles : Bool
  dupTris : ℕ
  vertexRefs : ℕ
  uniqueVerts : ℕ
  degenerate : ℕ
  nonManifold : ℕ
  trisBefore : ℕ
  trisAfter : ℕ
deriving DecidableEq

/-- One step of the coordinate-equality vertex merge (`getIdx` lambda): a new
position is appended at the end of the table, an existing one is looked up. -/
def insVert (acc : List Vec3) (v : Vec3) : List Vec3 :=
  if v ∈ acc then acc else acc ++ [v]

/-- The merged vertex table built by `cleanMesh` (and, identically, by
`removeDuplicateVertices`): positions in order of first occurrence,
`v0`, `v1`, `v2` of each triangle in input order. -/
def mergedVerts (ts : List Triangle) : List Vec3 :=
  ts.foldl (fun acc t => insVert (insVert (insVert acc t.v0) t.v1) t.v2) []

/-- Index of a position in the merged table. -/
def vIdx (verts : List Vec3) (v : Vec3) : ℕ := verts.indexOf v

/-- First pass of `cleanMesh`: map positions to merged indices and drop
triangles with a repeated index, counting them as degenerate. -/
def indexStage (verts : List Vec3) : List Triangle → List (ℕ × ℕ × ℕ) × ℕ
  | [] => ([], 0)
  | t :: r =>
    let i := vIdx verts t.v0
    let j := vIdx verts t.v1
    let k := vIdx verts t.v2
    let rest := indexStage verts r
    if i = j ∨ j = k ∨ k = i then (rest.1, rest.2 + 1)
    else ((i, j, k) :: rest.1, rest.2)

/-- Canonical key of an index triple: its indices in ascending order
(the `std::sort` over the 3-element array). -/
def sortKey3 (a b c : ℕ) : List ℕ := List.insertionSort (· ≤ ·) [a, b, c]

/-- Second pass of `cleanMesh`: drop triangles whose canonical key was
already seen, counting them as duplicates; first occurrence kept. -/
def dedupStage : List (List ℕ) → List (ℕ × ℕ × ℕ) → List (ℕ × ℕ × ℕ) × ℕ
  | _, [] => ([], 0)
  | seen, t :: r =>
    let key := sortKey3 t.1 t.2.1 t.2.2
    if key ∈ seen then
      let rest := dedupStage seen r
      (rest.1, rest.2 + 1)
    else
      let rest := dedupStage (key :: seen) r
      (t :: rest.1, rest.2)

/-- Edge keys (with multiplicity) of a list of index triples, in emission
order of `cleanMesh`'s edge-count loop. -/
def triListEdgeKeys (l : List (ℕ × ℕ × ℕ)) : List (ℕ × ℕ) :=
  l.flatMap fun t => [edgeKey t.1 t.2.1, edgeKey t.2.1 t.2.2, edgeKey t.2.2 t.1]

/-- Number of undirected edges shared by more than two triangles
(`cleanMesh`'s `dupEdges`). -/
def cleanNonManifold (l : List (ℕ × ℕ × ℕ)) : ℕ :=
  ((triListEdgeKeys l).dedup.filter fun k =>
    decide (2 < (triListEdgeKeys l).count k)).length

/-- Final pass of `cleanMesh`: rebuild each surviving triangle from the
vertex table with a geometry-recomputed unit normal, silently dropping any
whose cross-product length is at most `1e-10`. -/
def rebuildStage (s : ℚ → ℚ) (verts : List Vec3) (l : List (ℕ × ℕ × ℕ)) :
    List Triangle :=
  l.filterMap fun t =>
    let a := verts.getD t.1 v3zero
    let b := verts.getD t.2.1 v3zero
    let c := verts.getD t.2.2 v3zero
    let n := cross (vsub b a) (vsub c a)
    let len := s (norm2 n)
    if len ≤ eps10 then none else some ⟨vdiv n len, a, b, c⟩

/-- `StlReader::cleanMesh`: returns the cleaned triangle list and the report. -/
def cleanMesh (s : ℚ → ℚ) (ts : List Triangle) : List Triangle × CleanReport :=
  if ts = [] then ([], ⟨true, 0, 0, 0, 0, 0, 0, 0⟩)
  else
    let verts := mergedVerts ts
    let ind := indexStage verts ts
    let ded := dedupStage [] ind.1
    let nm := cleanNonManifold ded.1
    let out := rebuildStage s verts ded.1
    (out, ⟨false, ded.2, 3 * ts.length, verts.length, ind.2, nm, ts.length,
      out.length⟩)

/-- `StlReader::computeFluidMesh`: even-hit selection, `addCaps`, cap flip,
then `cleanMesh` on the result. -/
def computeFluidMesh (s : ℚ → ℚ) (m : Mesh) (originOffset tMin tEps : ℚ) :
    Option (List Triangle × CleanReport) :=
  (fluidPreClean s m originOffset tMin tEps).map (cleanMesh s)

/-- The structured content of `checkWatertight`'s report. -/
structure WtReport where
  noTriangles : Bool
  duplicateTriangles : ℕ
  bEdges : ℕ
  nmEdges : ℕ
  degenerate : ℕ
deriving DecidableEq

/-- Count of repeated canonical keys in a key list (a `std::set::insert`
failure counter): a key counts once for every occurrence after its first. -/
def dupCountGo : List (List ℕ) → List (List ℕ) → ℕ
  | _, [] => 0
  | seen, k :: r =>
    if k ∈ seen then dupCountGo seen r + 1 else dupCountGo (k :: seen) r

/-- `checkWatertight`'s duplicate-triangle count over the indexed triangles. -/
def meshDupTriangles (m : Mesh) : ℕ :=
  dupCountGo [] (m.indexedTriangles.map fun id => sortKey3 id.v0 id.v1 id.v2)

/-- Edge keys (with multiplicity) of the whole indexed mesh. -/
def meshEdgeKeys (m : Mesh) : List (ℕ × ℕ) :=
  m.indexedTriangles.flatMap fun id =>
    [edgeKey id.v0 id.v1, edgeKey id.v1 id.v2, edgeKey id.v2 id.v0]

/-- Number of undirected edges with incidence exactly 1. -/
def meshBoundaryEdgeCount (m : Mesh) : ℕ :=
  ((meshEdgeKeys m).dedup.filter fun k =>
    decide ((meshEdgeKeys m).count k = 1)).length

/-- Number of undirected edges with incidence greater than 2. -/
def meshNonManifoldEdgeCount (m : Mesh) : ℕ :=
  ((meshEdgeKeys m).dedup.filter fun k =>
    decide (2 < (meshEdgeKeys m).count k)).length

/-- Number of triangles whose squared area term `area2` is at most
`areaEps * areaEps` (`areaEps = 1e-10`). -/
def meshDegenerateCount (m : Mesh) : ℕ :=
  (m.indexedTriangles.filter fun id =>
    let a := m.vertices.getD id.v0 v3zero
    let b := m.vertices.getD id.v1 v3zero
    let c := m.vertices.getD id.v2 v3zero
    decide (norm2 (cross (vsub b a) (vsub c a)) ≤ eps10 * eps10)).length

/-- `StlReader::checkWatertight`: the returned boolean and the report data.
An empty mesh reports `noTriangles` and returns `false`. -/
def checkWatertight (m : Mesh) : Bool × WtReport :=
  if m.indexedTriangles = [] then (false, ⟨true, 0, 0, 0, 0⟩)
  else
    let dup := meshDupTriangles m
    let b := meshBoundaryEdgeCount m
    let nm := meshNonManifoldEdgeCount m
    let dg := meshDegenerateCount m
    (decide (dup = 0) && decide (b = 0) && decide (nm = 0) && decide (dg = 0),
      ⟨false, dup, b, nm, dg⟩)

/-- `StlReader::removeDuplicateVertices`: build the indexed mesh by
coordinate-equality vertex merge in order of first occurrence. -/
def removeDuplicateVertices (ts : List Triangle) : Mesh :=
  let verts := mergedVerts ts
  ⟨verts, ts.map fun t => ⟨vIdx verts t.v0, vIdx verts t.v1, vIdx verts t.v2⟩⟩

/-- Linear-search integer square root (structural recursion, so that closed
statements evaluate inside the kernel): largest `k ≤ fuel` with `k*k ≤ n`. -/
def natSqrtAux (n : ℕ) : ℕ → ℕ
  | 0 => 0
  | k + 1 => if (k + 1) * (k + 1) ≤ n then k + 1 else natSqrtAux n k

def natSqrt (n : ℕ) : ℕ := natSqrtAux n n

/-- Executable stand-in for `std::sqrt` on `ℚ`, used only to instantiate the
`s` parameter in closed statements: exact on perfect squares of rationals
(every square root arising in the closed statements below is of this form),
and at least `1` on any other positive input, so that positivity-threshold
comparisons behave as for the true square root on the inputs involved. -/
def ratSqrt (q : ℚ) : ℚ :=
  if q ≤ 0 then 0
  else
    let a := natSqrt q.num.toNat
    let b := natSqrt q.den
    if ((a : ℤ) * a = q.num ∧ b * b = q.den) then (a : ℚ) / b
    else (natSqrt (q.num.toNat / q.den) : ℚ) + 1

/-- A minimal model of a non-NaN IEEE `float` for the vertex-merge claim: the
represented numeric value together with the sign bit of a zero, which
distinguishes the bit patterns of `+0.0` and `-0.0` (two floats are
bit-identical here iff the structure values are equal, while `<` and `!=`
compare only the numeric value, as IEEE comparison does). -/
structure FloatVal where
  val : ℚ
  zeroSign : Bool
deriving DecidableEq

/-- A `Vec3` of modelled floats. -/
structure Vec3F where
  x : FloatVal
  y : FloatVal
  z : FloatVal
deriving DecidableEq

/-- `Vec3::operator<` from the source, over the float model: componentwise
`!=`-guarded `<` on numeric values. -/
def vec3FLt (a b : Vec3F) : Prop :=
  if a.x.val ≠ b.x.val then a.x.val < b.x.val
  else if a.y.val ≠ b.y.val then a.y.val < b.y.val
  else a.z.val < b.z.val

instance vec3FLt.dec : ∀ a b : Vec3F, Decidable (vec3FLt a b) := fun a b => by
  unfold vec3FLt; infer_instance

/-- The key-equivalence that `std::map<Vec3, size_t>` derives from
`Vec3::operator<`: neither key compares less than the other.  This is the
relation under which `removeDuplicateVertices` (and `cleanMesh`'s `getIdx`)
identifies two vertex positions. -/
def mapSameKey (a b : Vec3F) : Prop := ¬vec3FLt a b ∧ ¬vec3FLt b a

instance mapSameKey.dec : ∀ a b : Vec3F, Decidable (mapSameKey a b) :=
  fun a b => by unfold mapSameKey; infer_instance

/-- One vertex-merge step over the float model: a position is appended only
when no existing table entry is map-equivalent to it. -/
def insVertF (acc : List Vec3F) (v : Vec3F) : List Vec3F :=
  if acc.any fun w => decide (mapSameKey w v) then acc else acc ++ [v]

/-- The merged vertex table of `removeDuplicateVertices` over the float
model (one position per merge step suffices for the claim about identity). -/
def mergedVertsF (vs : List Vec3F) : List Vec3F := vs.foldl insVertF []

/-- The bit pattern of `+0.0` as a modelled vertex position. -/
def posZeroVec : Vec3F := ⟨⟨0, false⟩, ⟨0, false⟩, ⟨0, false⟩⟩

/-- The bit pattern of `(-0.0, 0, 0)` as a modelled vertex position:
numerically equal to `posZeroVec` but not bit-identical. -/
def negZeroVec : Vec3F := ⟨⟨0, true⟩, ⟨0, false⟩, ⟨0, false⟩⟩

/-! ## Spec-side definitions

Definitions following the wording of the specification (for refinement
claims), plus concrete example meshes used by closed statements. -/

/-- Spec side (§4.3): the hit distances of facet `i` sorted ascending. -/
def specSortedHitDistances (s : ℚ → ℚ) (m : Mesh) (originOffset tMin : ℚ)
    (i : ℕ) : List ℚ :=
  List.insertionSort (· ≤ ·) ((facetHits s m originOffset tMin i).map Prod.fst)

/-- Spec side (§4.3): first-in-run greedy distinct-hit count — the first hit
always starts a run, and a later hit starts a new run exactly when its
distance exceeds the last counted distance by more than `tEps`. -/
def specDistinctCount (tEps : ℚ) : List ℚ → ℕ
  | [] => 0
  | t :: r => countDistinct tEps t r + 1

/-- Spec side (C7 amendment): single-pass survivor computation of
`cleanMesh` — a triangle survives iff its merged indices are pairwise
distinct, its canonical key was not produced by an earlier non-degenerate
triangle, and its recomputed cross-product length exceeds `1e-10`; survivors
are rebuilt from the merged table with the recomputed unit normal. -/
def cleanSurvivorsGo (s : ℚ → ℚ) (verts : List Vec3) :
    List (List ℕ) → List Triangle → List Triangle
  | _, [] => []
  | seen, t :: r =>
    let i := vIdx verts t.v0
    let j := vIdx verts t.v1
    let k := vIdx verts t.v2
    if i = j ∨ j = k ∨ k = i then cleanSurvivorsGo s verts seen r
    else if sortKey3 i j k ∈ seen then cleanSurvivorsGo s verts seen r
    else
      let a := verts.getD i v3zero
      let b := verts.getD j v3zero
      let c := verts.getD k v3zero
      let n := cross (vsub b a) (vsub c a)
      let len := s (norm2 n)
      if len ≤ eps10 then cleanSurvivorsGo s verts (sortKey3 i j k :: seen) r
      else ⟨vdiv n len, a, b, c⟩ :: cleanSurvivorsGo s verts (sortKey3 i j k :: seen) r

/-- Spec side (C7 amendment): the survivors of `cleanMesh` on `ts`. -/
def cleanSurvivors (s : ℚ → ℚ) (ts : List Triangle) : List Triangle :=
  cleanSurvivorsGo s (mergedVerts ts) [] ts

/-- Unordered position-pair edges of one raw triangle (as a multiset of
unordered pairs; when all positions involved are distinct this is exactly
the undirected-edge notion that `cleanMesh`/`checkWatertight` obtain from
canonical index pairs after the coordinate-equality vertex merge). -/
def triEdgeSet (t : Triangle) : Multiset (Sym2 Vec3) :=
  {Sym2.mk (t.v0, t.v1), Sym2.mk (t.v1, t.v2), Sym2.mk (t.v2, t.v0)}

/-- All undirected position-pair edges of a triangle soup, with
multiplicity. -/
def soupEdges (ts : List Triangle) : Multiset (Sym2 Vec3) :=
  (ts.map triEdgeSet).sum

/-- A unit square in the `z = 0` plane split into two triangles with
inconsistent winding: the shared diagonal occurs twice in the same
direction `2→0`, so it is not a boundary edge, and the four boundary
directed edges `0→1`, `1→2`, `0→3`, `3→2` form two open chains ending at
vertex `2` (which has no outgoing boundary edge) rather than a closed loop. -/
def chainMesh : Mesh :=
  ⟨[⟨0, 0, 0⟩, ⟨1, 0, 0⟩, ⟨1, 1, 0⟩, ⟨0, 1, 0⟩], [⟨0, 1, 2⟩, ⟨0, 3, 2⟩]⟩

/-- A two-triangle tent: triangle 0 `(a, b, c)` lies in the `z = 0` plane
with geometric normal `+z`; triangle 1 `(c, b, d)` with `d = (0,0,1)` folds
back over it, its geometric normal pointing into the `(-,-,-)` octant.  The
boundary directed edges `0→1`, `1→3`, `3→2`, `2→0` form one closed loop whose
edges are owned half by triangle 0 and half by triangle 1. -/
def tentMesh : Mesh :=
  ⟨[⟨0, 0, 0⟩, ⟨1, 0, 0⟩, ⟨0, 1, 0⟩, ⟨0, 0, 1⟩], [⟨0, 1, 2⟩, ⟨2, 1, 3⟩]⟩

/-- A single right triangle in the `z = 0` plane, as an indexed mesh. -/
def oneTriMesh : Mesh := ⟨[⟨0, 0, 0⟩, ⟨1, 0, 0⟩, ⟨0, 1, 0⟩], [⟨0, 1, 2⟩]⟩

/-- The mesh holding a single triangle with vertex positions `a`, `b`, `c`. -/
def singleTriMesh (a b c : Vec3) : Mesh := ⟨[a, b, c], [⟨0, 1, 2⟩]⟩

/-- A collinear but index-nondegenerate triangle: three distinct positions
on the `x`-axis (zero area, cross product exactly `0`). -/
def collinearTri : Triangle := ⟨⟨0, 0, 1⟩, ⟨0, 0, 0⟩, ⟨1, 0, 0⟩, ⟨2, 0, 0⟩⟩

/-! ## Theorems -/

/-- C10: for the empty mesh every core operation degrades gracefully: the
even-hit classifier produces the empty subset, `addCaps` returns just the
(empty) subset, `computeFluidMesh` produces an empty fluid list whose
`cleanMesh` report is the `"No triangles"` early return, `volume` is `0`,
`cleanMesh` on an empty list reports `"No triangles"` leaving it empty, and
`checkWatertight` reports `"no triangles"` (and returns `false`) instead of
faulting. -/
theorem C10_empty_mesh_degrades_gracefully (s : ℚ → ℚ)
    (originOffset tMin tEps : ℚ) :
    evenHits s ⟨[], []⟩ originOffset tMin tEps = [] ∧
    addCaps s ⟨[], []⟩ [] = some [] ∧
    computeFluidMesh s ⟨[], []⟩ originOffset tMin tEps =
      some ([], ⟨true, 0, 0, 0, 0, 0, 0, 0⟩) ∧
    volume ⟨[], []⟩ = 0 ∧
    cleanMesh s [] = ([], ⟨true, 0, 0, 0, 0, 0, 0, 0⟩) ∧
    checkWatertight ⟨[], []⟩ = (false, ⟨true, 0, 0, 0, 0⟩) := by
  refine ⟨rfl, rfl, rfl, ?_, rfl, rfl⟩
  with_unfolding_all rfl

/-- C9 counterexample: the vertex positions `(+0.0, 0, 0)` and
`(-0.0, 0, 0)` are not bit-identical, yet the vertex merge of
`removeDuplicateVertices` (modelled over floats with signed zeros by
`mergedVertsF`) identifies them: the merged table has a single entry.  The
`std::map` key equivalence derived from `Vec3::operator<` compares the
*numeric* values (IEEE `!=`/`<`), under which `-0.0` equals `+0.0`, so
"bit-identical coordinates" is not the identity the code implements. -/
theorem C9_counterexample_negzero_merged :
    (mergedVertsF [posZeroVec, negZeroVec]).length = 1 ∧
    posZeroVec ≠ negZeroVec :=
  ⟨by decide, by decide⟩

/-- The `std::map` key equivalence derived from `Vec3::operator<` is
componentwise *numeric* equality of the three float coordinates. -/
lemma mapSameKey_iff_val (a b : Vec3F) :
    mapSameKey a b ↔
      a.x.val = b.x.val ∧ a.y.val = b.y.val ∧ a.z.val = b.z.val := by
  unfold mapSameKey vec3FLt
  constructor
  · rintro ⟨h1, h2⟩
    by_cases hx : a.x.val = b.x.val
    · by_cases hy : a.y.val = b.y.val
      · rw [if_neg (by simpa using hx), if_neg (by simpa using hy)] at h1
        rw [if_neg (by simpa using hx.symm), if_neg (by simpa using hy.symm)] at h2
        exact ⟨hx, hy, le_antisymm (not_lt.1 h2) (not_lt.1 h1)⟩
      · rw [if_neg (by simpa using hx), if_pos hy] at h1
        rw [if_neg (by simpa using hx.symm),
          if_pos (fun hc => hy hc.symm)] at h2
        exact absurd (le_antisymm (not_lt.1 h2) (not_lt.1 h1)) hy
    · rw [if_pos hx] at h1
      rw [if_pos (fun hc => hx hc.symm)] at h2
      exact absurd (le_antisymm (not_lt.1 h2) (not_lt.1 h1)) hx
  · rintro ⟨hx, hy, hz⟩
    rw [hx, hy, hz]
    simp

/-- C9 amended: vertex merging identifies two positions exactly when the
`std::map` key equivalence derived from `Vec3::operator<` holds, which is
componentwise *numeric* equality of the three float coordinates: (1) the key
equivalence itself is the componentwise numeric equality, (2) a merge step
leaves the vertex table unchanged (identifies the incoming position with an
existing vertex) exactly when the table already holds a numerically equal
entry, and (3) two positions merge into a single table entry exactly when
they are componentwise numerically equal — so `+0.0` and `-0.0`, numerically
equal but not bit-identical, merge into one vertex. -/
theorem C9_amended_merge_iff_numeric_eq :
    (∀ a b : Vec3F, mapSameKey a b ↔
      a.x.val = b.x.val ∧ a.y.val = b.y.val ∧ a.z.val = b.z.val) ∧
    (∀ (acc : List Vec3F) (v : Vec3F), insVertF acc v = acc ↔
      ∃ w ∈ acc, w.x.val = v.x.val ∧ w.y.val = v.y.val ∧ w.z.val = v.z.val) ∧
    (∀ a b : Vec3F, (mergedVertsF [a, b]).length = 1 ↔
      a.x.val = b.x.val ∧ a.y.val = b.y.val ∧ a.z.val = b.z.val) := by
  refine ⟨mapSameKey_iff_val, fun acc v => ?_, fun a b => ?_⟩
  · unfold insVertF
    split_ifs with h
    · constructor
      · intro _
        obtain ⟨w, hw, hkey⟩ := List.any_eq_true.1 h
        exact ⟨w, hw, (mapSameKey_iff_val w v).1 (of_decide_eq_true hkey)⟩
      · intro _
        rfl
    · constructor
      · intro hEq
        have hlen := congrArg List.length hEq
        rw [List.length_append, List.length_singleton] at hlen
        exact absurd hlen (by omega)
      · rintro ⟨w, hw, hnum⟩
        exact absurd (List.any_eq_true.2
          ⟨w, hw, decide_eq_true ((mapSameKey_iff_val w v).2 hnum)⟩) h
  · by_cases hk : mapSameKey a b
    · have hm : mergedVertsF [a, b] = [a] := by
        simp [mergedVertsF, insVertF, hk]
      rw [hm]
      exact iff_of_true rfl ((mapSameKey_iff_val a b).1 hk)
    · have hm : mergedVertsF [a, b] = [a, b] := by
        simp [mergedVertsF, insVertF, hk]
      rw [hm]
      exact iff_of_false (by simp)
        (fun hnum => hk ((mapSameKey_iff_val a b).2 hnum))

/-- C7 counterexample: a collinear triangle with three *distinct* positions
(`(0,0,0)`, `(1,0,0)`, `(2,0,0)`) is neither degenerate after merge (its
three merged indices `0,1,2` are pairwise distinct — degenerate count `0`)
nor a duplicate (duplicate count `0`), yet `cleanMesh` removes it: the
output is empty because the final rebuild pass silently drops every
triangle whose recomputed cross-product length is at most `1e-10` (here the
cross product is exactly zero).  So `cleanMesh` does not remove *exactly*
the index-degenerate and duplicate triangles. -/
theorem C7_counterexample_nearzero_area_removed :
    cleanMesh ratSqrt [collinearTri] = ([], ⟨false, 0, 3, 3, 0, 0, 1, 0⟩) := by
  with_unfolding_all rfl

/-- C2 counterexample: on `chainMesh` (two triangles with inconsistent
winding) the boundary directed edges are `0→1`, `0→3`, `1→2`, `3→2`; vertex
`2` has no outgoing boundary edge (`nextList … 2 = []`), so *every* trace
dead-ends and no trace ever closes a loop.  Under the claim ("a trace that
hits a dead end aborts for that attempt — its open path is not capped as a
loop") the output would be just the 2 subset triangles; the code instead
caps both dead-ended open paths `[0,1,2]` and `[0,3,2]` as if they were
closed loops, emitting 3 caps each, for a total of 8 output triangles. -/
theorem C2_counterexample_deadend_path_capped :
    boundaryEdges chainMesh [0, 1] =
      [⟨0, 1, 0⟩, ⟨0, 3, 1⟩, ⟨1, 2, 0⟩, ⟨3, 2, 1⟩] ∧
    nextList (boundaryEdges chainMesh [0, 1]) 2 = [] ∧
    (addCaps ratSqrt chainMesh [0, 1]).getD [] =
      [getTriangle ratSqrt chainMesh 0, getTriangle ratSqrt chainMesh 1] ++
        capOneLoop ratSqrt chainMesh [0, 1, 2] 0 ++
        capOneLoop ratSqrt chainMesh [0, 3, 2] 1 ∧
    ((addCaps ratSqrt chainMesh [0, 1]).getD []).length = 8 := by
  refine ⟨by with_unfolding_all rfl, by with_unfolding_all rfl,
    by with_unfolding_all rfl, by with_unfolding_all rfl⟩

/-- C3 counterexample: on `tentMesh` the single boundary loop is traced as
`[0, 1, 3, 2]` starting from the edge `0→1` owned by triangle `0`, and
*every* cap of that loop is oriented against `getTriangle 0`'s normal — the
whole `addCaps` output is the two subset triangles followed by
`capOneLoop … [0, 1, 3, 2] 0`.  The loop edge `(1, 3)` (positions
`b = (1,0,0)`, `d = (0,0,1)`) is owned by triangle `1` (the directed
boundary edge `⟨1, 3, 1⟩`), and the dot product of its raw cap normal
`capCross … 1` with triangle `1`'s raw geometric normal
`(v1-v0) × (v2-v0) = (-1,-1,-1)` is `1 > 0` (signs are unchanged by
normalizing either factor, which divides by a positive length), so the
claim mandates the unswapped cap `(C, b, d)`.  The code instead emits the
swapped cap `(C, d, b)` — index `1` of the cap list, index `3` of the
output — because it dots against triangle `0`'s normal. -/
theorem C3_counterexample_per_loop_normal :
    (⟨1, 3, 1⟩ : DirectedEdge) ∈ boundaryEdges tentMesh [0, 1] ∧
    (addCaps ratSqrt tentMesh [0, 1]).getD [] =
      [getTriangle ratSqrt tentMesh 0, getTriangle ratSqrt tentMesh 1] ++
        capOneLoop ratSqrt tentMesh [0, 1, 3, 2] 0 ∧
    loopVert tentMesh [0, 1, 3, 2] 1 = ⟨1, 0, 0⟩ ∧
    loopVert tentMesh [0, 1, 3, 2] 2 = ⟨0, 0, 1⟩ ∧
    0 < dot (capCross tentMesh [0, 1, 3, 2] 1)
        (cross (vsub ⟨1, 0, 0⟩ ⟨0, 1, 0⟩) (vsub ⟨0, 0, 1⟩ ⟨0, 1, 0⟩)) ∧
    (capOneLoop ratSqrt tentMesh [0, 1, 3, 2] 0).getD 1 triDefault =
      ⟨⟨1/4, 1/2, 1/4⟩, ⟨1/4, 1/4, 1/4⟩, ⟨0, 0, 1⟩, ⟨1, 0, 0⟩⟩ := by
  refine ⟨by with_unfolding_all decide, by with_unfolding_all rfl,
    by with_unfolding_all rfl, by with_unfolding_all rfl,
    by with_unfolding_all decide, by with_unfolding_all rfl⟩

/-- C6: for a nonempty indexed mesh, `checkWatertight` returns `true` iff the
mesh has zero duplicate triangles (by sorted canonical index triple), zero
near-zero-area triangles, and every undirected edge that occurs at all has
incidence exactly 2 (equivalently: zero boundary edges and zero non-manifold
edges, which is how the code counts it). -/
theorem C6_checkWatertight_iff (m : Mesh) (h : m.indexedTriangles ≠ []) :
    (checkWatertight m).1 = true ↔
      meshDupTriangles m = 0 ∧ meshDegenerateCount m = 0 ∧
      ∀ e ∈ meshEdgeKeys m, (meshEdgeKeys m).count e = 2 := by
  unfold checkWatertight
  rw [if_neg h]
  simp only [Bool.and_eq_true, decide_eq_true_eq]
  constructor
  · rintro ⟨⟨⟨hdup, hb⟩, hnm⟩, hdg⟩
    refine ⟨hdup, hdg, fun e he => ?_⟩
    have hd : e ∈ (meshEdgeKeys m).dedup := List.mem_dedup.2 he
    have hball : ∀ k ∈ (meshEdgeKeys m).dedup,
        ¬((meshEdgeKeys m).count k = 1) := by
      have := (List.filter_eq_nil_iff).1 (List.length_eq_zero.1 hb)
      intro k hk hc
      exact absurd (by simpa using this k hk) (by simp [hc])
    have hnall : ∀ k ∈ (meshEdgeKeys m).dedup,
        ¬(2 < (meshEdgeKeys m).count k) := by
      have := (List.filter_eq_nil_iff).1 (List.length_eq_zero.1 hnm)
      intro k hk hc
      exact absurd (by simpa using this k hk) (by simp [hc])
    have hne : (meshEdgeKeys m).count e ≠ 0 := by
      simpa [List.count_eq_zero] using he
    have h1 := hball e hd
    have h2 := hnall e hd
    omega
  · rintro ⟨hdup, hdg, hall⟩
    refine ⟨⟨⟨hdup, ?_⟩, ?_⟩, hdg⟩
    · unfold meshBoundaryEdgeCount
      rw [List.length_eq_zero, List.filter_eq_nil_iff]
      intro k hk
      have := hall k (List.mem_dedup.1 hk)
      simp [this]
    · unfold meshNonManifoldEdgeCount
      rw [List.length_eq_zero, List.filter_eq_nil_iff]
      intro k hk
      have := hall k (List.mem_dedup.1 hk)
      simp [this]

/-- C6 witness: a single triangle has three boundary edges, so the
equivalence is the false-iff-false instance on `oneTriMesh`. -/
theorem C6_checkWatertight_iff_witness :
    oneTriMesh.indexedTriangles ≠ [] ∧
    ((checkWatertight oneTriMesh).1 = true ↔
      meshDupTriangles oneTriMesh = 0 ∧ meshDegenerateCount oneTriMesh = 0 ∧
      ∀ e ∈ meshEdgeKeys oneTriMesh, (meshEdgeKeys oneTriMesh).count e = 2) :=
  ⟨by decide, C6_checkWatertight_iff oneTriMesh (by decide)⟩

/-- C4: in `computeFluidMesh`, after `addCaps` returns `out`, the list handed
to `cleanMesh` keeps the first `|evenHits|` entries (the even-hit subset)
unchanged and replaces every later entry — every cap — by its flip: `v1` and
`v2` swapped and the normal negated; `computeFluidMesh` is exactly
`cleanMesh` of that flipped list. -/
theorem C4_caps_flipped (s : ℚ → ℚ) (m : Mesh) (originOffset tMin tEps : ℚ)
    (out : List Triangle)
    (h : addCaps s m (evenHits s m originOffset tMin tEps) = some out) :
    ∃ l, fluidPreClean s m originOffset tMin tEps = some l ∧
      computeFluidMesh s m originOffset tMin tEps = some (cleanMesh s l) ∧
      l.length = out.length ∧
      (∀ i, i < (evenHits s m originOffset tMin tEps).length → i < out.length →
        l.getD i triDefault = out.getD i triDefault) ∧
      ∀ i, (evenHits s m originOffset tMin tEps).length ≤ i → i < out.length →
        l.getD i triDefault = flipTri (out.getD i triDefault) ∧
        (l.getD i triDefault).v1 = (out.getD i triDefault).v2 ∧
        (l.getD i triDefault).v2 = (out.getD i triDefault).v1 ∧
        (l.getD i triDefault).normal = vneg (out.getD i triDefault).normal := by
  have hf : fluidPreClean s m originOffset tMin tEps =
      some ((List.range out.length).map fun i =>
        if i < (evenHits s m originOffset tMin tEps).length then
          out.getD i triDefault
        else flipTri (out.getD i triDefault)) := by
    simp only [fluidPreClean, h, Option.map_some']
  refine ⟨_, hf, ?_, ?_, ?_, ?_⟩
  · unfold computeFluidMesh
    rw [hf]
    rfl
  · simp
  · intro i hi hilen
    rw [List.getD_eq_getElem _ _ (by simpa using hilen)]
    simp [hi]
  · intro i hi hilen
    rw [List.getD_eq_getElem _ _ (by simpa using hilen)]
    have hni : ¬i < (evenHits s m originOffset tMin tEps).length :=
      not_lt.2 hi
    simp [hni, flipTri]

/-- C4 witness: on `oneTriMesh` the even-hit subset is empty and `addCaps`
returns `some []`, so the theorem applies with `out = []`. -/
theorem C4_caps_flipped_witness :
    ∃ l, fluidPreClean ratSqrt oneTriMesh (1/10^4) (1/10^2) (1/10^4) =
      some l ∧ l.length = 0 := by
  obtain ⟨l, hl, -, hlen, -, -⟩ :=
    C4_caps_flipped ratSqrt oneTriMesh (1/10^4) (1/10^2) (1/10^4) []
      (by with_unfolding_all rfl)
  exact ⟨l, hl, by simpa using hlen⟩

/-- Any distance returned by the intersector is strictly greater than the
Möller–Trumbore epsilon `1e-6` (in particular positive). -/
lemma rayIntersect_pos {s : ℚ → ℚ} {m : Mesh} {i : ℕ} {ro rd : Vec3} {t : ℚ}
    (h : rayIntersect s m i ro rd = some t) : mtEps < t := by
  unfold rayIntersect at h
  dsimp only at h
  split_ifs at h with h1 h2 h3 h4
  exact lt_of_lt_of_eq (lt_of_not_le h4) (Option.some_inj.1 h)

/-- Every hit pair collected for facet `i` has distance above `mtEps`. -/
lemma facetHits_pos {s : ℚ → ℚ} {m : Mesh} {originOffset tMin : ℚ} {i : ℕ}
    {p : ℚ × ℕ} (hp : p ∈ facetHits s m originOffset tMin i) : mtEps < p.1 := by
  unfold facetHits at hp
  dsimp only at hp
  obtain ⟨k, -, hk⟩ := List.mem_filterMap.1 hp
  obtain ⟨t, hray, ht⟩ := Option.bind_eq_some.1 hk
  split_ifs at ht with htm
  rw [← Option.some_inj.1 ht]
  exact rayIntersect_pos hray

/-- The distances of the pair-sorted hit list are the sorted distances:
sorting `(t, k)` pairs lexicographically and projecting to `t` agrees with
sorting the projected distances. -/
lemma map_fst_pairSort (l : List (ℚ × ℕ)) :
    (List.insertionSort pairLe l).map Prod.fst =
      List.insertionSort (· ≤ ·) (l.map Prod.fst) := by
  apply List.eq_of_perm_of_sorted (r := (· ≤ ·))
  · exact ((List.perm_insertionSort pairLe l).map Prod.fst).trans
      (List.perm_insertionSort (· ≤ ·) (l.map Prod.fst)).symm
  · exact List.Pairwise.map Prod.fst
      (fun a b hab => hab.elim le_of_lt fun hc => le_of_eq hc.1)
      (List.sorted_insertionSort pairLe l)
  · exact List.sorted_insertionSort (· ≤ ·) (l.map Prod.fst)

/-- On a list of positive distances, the `-1e30f` sentinel behaves as "the
first hit always starts a run", provided `tEps ≤ 10^30`. -/
lemma countDistinct_sentinel (tEps : ℚ) (l : List ℚ)
    (hl : ∀ t ∈ l, 0 < t) (hteps : tEps ≤ 10 ^ 30) :
    countDistinct tEps (-(10 ^ 30)) l = specDistinctCount tEps l := by
  cases l with
  | nil => rfl
  | cons t r =>
    have ht : 0 < t := hl t (List.mem_cons_self t r)
    unfold countDistinct specDistinctCount
    rw [if_pos (by linarith)]

/-- C1: the interior classifier retains facet `i` iff its distinct-hit count
is nonzero and even, where the hits are the distances `t > tMin` returned by
the ray-triangle intersector for the outward centroid ray against every
other facet, sorted ascending, and distinct hits are counted by the
first-in-run greedy merge (a new distinct hit starts exactly when the
distance exceeds the last counted one by more than `tEps`).  The hypothesis
`tEps ≤ 10^30` covers the `-1e30f` sentinel the code uses for "no hit
counted yet" (any admissible merge tolerance satisfies it). -/
theorem C1_even_hit_classifier (s : ℚ → ℚ) (m : Mesh)
    (originOffset tMin tEps : ℚ) (i : ℕ)
    (hi : i < m.indexedTriangles.length) (hteps : tEps ≤ 10 ^ 30) :
    i ∈ evenHits s m originOffset tMin tEps ↔
      specDistinctCount tEps (specSortedHitDistances s m originOffset tMin i) ≠ 0 ∧
      Even (specDistinctCount tEps (specSortedHitDistances s m originOffset tMin i)) := by
  have key : distinctHits s m originOffset tMin tEps i =
      specDistinctCount tEps (specSortedHitDistances s m originOffset tMin i) := by
    unfold distinctHits specSortedHitDistances
    rw [map_fst_pairSort]
    refine countDistinct_sentinel tEps _ (fun t ht => ?_) hteps
    have hmem : t ∈ (facetHits s m originOffset tMin i).map Prod.fst :=
      (List.perm_insertionSort (· ≤ ·) _).mem_iff.1 ht
    obtain ⟨p, hp, hpt⟩ := List.mem_map.1 hmem
    have := facetHits_pos hp
    have hme : (0 : ℚ) < mtEps := by norm_num [mtEps]
    rw [← hpt]
    linarith
  unfold evenHits
  rw [List.mem_filter]
  simp only [List.mem_range, Bool.and_eq_true, decide_eq_true_eq]
  rw [key, Nat.and_one_is_mod]
  constructor
  · rintro ⟨-, hpos, hmod⟩
    exact ⟨Nat.pos_iff_ne_zero.1 hpos, Nat.even_iff.2 hmod⟩
  · rintro ⟨hne, hev⟩
    exact ⟨hi, Nat.pos_iff_ne_zero.2 hne, Nat.even_iff.1 hev⟩

/-- C1 witness: on the single-triangle mesh facet `0` has no other facet to
hit, so both sides of the equivalence are false. -/
theorem C1_even_hit_classifier_witness :
    (0 < oneTriMesh.indexedTriangles.length) ∧ ((1 : ℚ)/10^4 ≤ 10 ^ 30) ∧
    (0 ∈ evenHits ratSqrt oneTriMesh (1/10^4) (1/10^2) (1/10^4) ↔
      specDistinctCount (1/10^4)
        (specSortedHitDistances ratSqrt oneTriMesh (1/10^4) (1/10^2) 0) ≠ 0 ∧
      Even (specDistinctCount (1/10^4)
        (specSortedHitDistances ratSqrt oneTriMesh (1/10^4) (1/10^2) 0))) :=
  ⟨by decide, by with_unfolding_all decide,
    C1_even_hit_classifier ratSqrt oneTriMesh (1/10^4) (1/10^2) (1/10^4) 0
      (by decide) (by with_unfolding_all decide)⟩

/-- Unfolding step for the rebuild pass. -/
lemma rebuildStage_cons (s : ℚ → ℚ) (verts : List Vec3) (t : ℕ × ℕ × ℕ)
    (l : List (ℕ × ℕ × ℕ)) :
    rebuildStage s verts (t :: l) =
      if s (norm2 (cross (vsub (verts.getD t.2.1 v3zero) (verts.getD t.1 v3zero))
          (vsub (verts.getD t.2.2 v3zero) (verts.getD t.1 v3zero)))) ≤ eps10 then
        rebuildStage s verts l
      else
        ⟨vdiv (cross (vsub (verts.getD t.2.1 v3zero) (verts.getD t.1 v3zero))
            (vsub (verts.getD t.2.2 v3zero) (verts.getD t.1 v3zero)))
          (s (norm2 (cross (vsub (verts.getD t.2.1 v3zero) (verts.getD t.1 v3zero))
            (vsub (verts.getD t.2.2 v3zero) (verts.getD t.1 v3zero))))),
          verts.getD t.1 v3zero, verts.getD t.2.1 v3zero,
          verts.getD t.2.2 v3zero⟩ :: rebuildStage s verts l := by
  show List.filterMap _ (t :: l) = _
  rw [List.filterMap_cons]
  dsimp only
  split_ifs <;> rfl

/-- The three passes of `cleanMesh` fuse into the single-pass spec-side
survivor computation. -/
lemma clean_fusion (s : ℚ → ℚ) (verts : List Vec3) :
    ∀ (ts : List Triangle) (seen : List (List ℕ)),
      rebuildStage s verts (dedupStage seen (indexStage verts ts).1).1 =
        cleanSurvivorsGo s verts seen ts := by
  intro ts
  induction ts with
  | nil => intro seen; rfl
  | cons t r ih =>
    intro seen
    rw [indexStage, cleanSurvivorsGo]
    dsimp only
    split_ifs with hdeg hseen hlen
    · exact ih seen
    · rw [dedupStage]
      dsimp only
      rw [if_pos hseen]
      exact ih seen
    · rw [dedupStage]
      dsimp only
      rw [if_neg hseen]
      dsimp only
      rw [rebuildStage_cons]
      dsimp only
      rw [if_pos hlen]
      exact ih _
    · rw [dedupStage]
      dsimp only
      rw [if_neg hseen]
      dsimp only
      rw [rebuildStage_cons]
      dsimp only
      rw [if_neg hlen]
      rw [ih _]

/-- C7 amended: `cleanMesh`'s output is exactly, in order, the rebuilt
survivors — a triangle survives iff (1) its three vertex indices after the
coordinate-equality merge are pairwise distinct, (2) its sorted merged-index
triple does not repeat that of an earlier triangle with pairwise-distinct
merged indices, and (3) its recomputed cross-product length after merge
exceeds `1e-10` (this third removal class, applied silently by the rebuild
pass, is what the original claim omits); and the two literal scenarios hold
with the implicit non-degeneracy provisos made explicit: two coincident
triangles with three pairwise-distinct shared positions and above-threshold
area reduce to one with duplicate count 1 and degenerate count 0, and a
triangle with `v0 = v1` is removed entirely with degenerate count 1,
duplicate count 0, and output count 0. -/
theorem C7_cleanMesh_removal (s : ℚ → ℚ) :
    (∀ ts : List Triangle, (cleanMesh s ts).1 = cleanSurvivors s ts) ∧
    (∀ n1 n2v a b c : Vec3, a ≠ b → b ≠ c → a ≠ c →
      eps10 < s (norm2 (cross (vsub b a) (vsub c a))) →
      (cleanMesh s [⟨n1, a, b, c⟩, ⟨n2v, a, b, c⟩]).1.length = 1 ∧
      (cleanMesh s [⟨n1, a, b, c⟩, ⟨n2v, a, b, c⟩]).2.dupTris = 1 ∧
      (cleanMesh s [⟨n1, a, b, c⟩, ⟨n2v, a, b, c⟩]).2.degenerate = 0) ∧
    (∀ n1 a c : Vec3,
      (cleanMesh s [⟨n1, a, a, c⟩]).1 = [] ∧
      (cleanMesh s [⟨n1, a, a, c⟩]).2.degenerate = 1 ∧
      (cleanMesh s [⟨n1, a, a, c⟩]).2.dupTris = 0 ∧
      (cleanMesh s [⟨n1, a, a, c⟩]).2.trisAfter = 0) := by
  refine ⟨fun ts => ?_, fun n1 n2v a b c hab hbc hac hlen => ?_, fun n1 a c => ?_⟩
  · cases hts : ts with
    | nil => rfl
    | cons t r =>
      unfold cleanMesh cleanSurvivors
      rw [if_neg (by simp)]
      exact clean_fusion s (mergedVerts (t :: r)) (t :: r) []
  · have hverts : mergedVerts [(⟨n1, a, b, c⟩ : Triangle), ⟨n2v, a, b, c⟩] =
        [a, b, c] := by
      simp [mergedVerts, insVert, hab, hbc, hac,
        Ne.symm hab, Ne.symm hbc, Ne.symm hac]
    have hia : vIdx [a, b, c] a = 0 := by
      unfold vIdx
      rw [List.indexOf_cons_self]
    have hib : vIdx [a, b, c] b = 1 := by
      unfold vIdx
      rw [List.indexOf_cons_ne _ hab, List.indexOf_cons_self]
    have hic : vIdx [a, b, c] c = 2 := by
      unfold vIdx
      rw [List.indexOf_cons_ne _ hac, List.indexOf_cons_ne _ hbc,
        List.indexOf_cons_self]
    have hidx : indexStage [a, b, c]
        [(⟨n1, a, b, c⟩ : Triangle), ⟨n2v, a, b, c⟩] = ([(0, 1, 2), (0, 1, 2)], 0) := by
      unfold indexStage indexStage
      dsimp only
      rw [hia, hib, hic]
      rw [if_neg (by decide), if_neg (by decide)]
      rfl
    have hded : dedupStage [] [((0 : ℕ), (1 : ℕ), (2 : ℕ)), (0, 1, 2)] =
        ([(0, 1, 2)], 1) := by decide
    unfold cleanMesh
    rw [if_neg (by simp)]
    dsimp only
    rw [hverts, hidx]
    dsimp only
    rw [hded]
    dsimp only
    rw [rebuildStage_cons]
    dsimp only
    rw [if_neg (not_le.2 (by simpa using hlen))]
    exact ⟨rfl, rfl, rfl⟩
  · unfold cleanMesh
    rw [if_neg (by simp)]
    dsimp only
    rw [indexStage]
    dsimp only
    rw [if_pos (Or.inl rfl)]
    exact ⟨rfl, rfl, rfl, rfl⟩

/-- C7 amended witness: the coincident-pair scenario at a concrete right
triangle. -/
theorem C7_cleanMesh_removal_witness :
    (cleanMesh ratSqrt [⟨⟨0, 0, 1⟩, ⟨0, 0, 0⟩, ⟨1, 0, 0⟩, ⟨0, 1, 0⟩⟩,
      ⟨⟨0, 0, 1⟩, ⟨0, 0, 0⟩, ⟨1, 0, 0⟩, ⟨0, 1, 0⟩⟩]).1.length = 1 ∧
    (cleanMesh ratSqrt [⟨⟨0, 0, 1⟩, ⟨0, 0, 0⟩, ⟨1, 0, 0⟩, ⟨0, 1, 0⟩⟩,
      ⟨⟨0, 0, 1⟩, ⟨0, 0, 0⟩, ⟨1, 0, 0⟩, ⟨0, 1, 0⟩⟩]).2.dupTris = 1 := by
  obtain ⟨-, h2, -⟩ := C7_cleanMesh_removal ratSqrt
  obtain ⟨hl, hd, -⟩ := h2 ⟨0, 0, 1⟩ ⟨0, 0, 1⟩ ⟨0, 0, 0⟩ ⟨1, 0, 0⟩ ⟨0, 1, 0⟩
    (by decide) (by decide) (by decide) (by with_unfolding_all decide)
  exact ⟨hl, hd⟩

lemma mem_insVert_self (acc : List Vec3) (v : Vec3) : v ∈ insVert acc v := by
  unfold insVert
  split_ifs with h
  · exact h
  · simp

lemma subset_insVert (acc : List Vec3) (v : Vec3) : acc ⊆ insVert acc v := by
  unfold insVert
  split_ifs with h
  · exact fun x hx => hx
  · exact fun x hx => List.mem_append_left _ hx

lemma insVert_nodup {acc : List Vec3} (v : Vec3) (h : acc.Nodup) :
    (insVert acc v).Nodup := by
  unfold insVert
  split_ifs with hv
  · exact h
  · simpa [List.nodup_append] using ⟨h, hv⟩

/-- One merge step of `mergedVerts`. -/
def insTri (acc : List Vec3) (t : Triangle) : List Vec3 :=
  insVert (insVert (insVert acc t.v0) t.v1) t.v2

lemma mergedVerts_eq_foldl (ts : List Triangle) :
    mergedVerts ts = ts.foldl insTri [] := rfl

lemma foldl_insTri_nodup (ts : List Triangle) :
    ∀ acc : List Vec3, acc.Nodup → (ts.foldl insTri acc).Nodup := by
  induction ts with
  | nil => exact fun acc h => h
  | cons t r ih =>
    intro acc h
    exact ih _ (insVert_nodup _ (insVert_nodup _ (insVert_nodup _ h)))

lemma subset_foldl_insTri (ts : List Triangle) :
    ∀ acc : List Vec3, acc ⊆ ts.foldl insTri acc := by
  induction ts with
  | nil => exact fun acc x hx => hx
  | cons t r ih =>
    intro acc
    refine fun x hx => ih (insTri acc t) ?_
    exact subset_insVert _ _ (subset_insVert _ _ (subset_insVert _ _ hx))

lemma mem_foldl_insTri {t : Triangle} {ts : List Triangle} (ht : t ∈ ts) :
    ∀ acc : List Vec3, t.v0 ∈ ts.foldl insTri acc ∧
      t.v1 ∈ ts.foldl insTri acc ∧ t.v2 ∈ ts.foldl insTri acc := by
  induction ts with
  | nil => exact absurd ht (List.not_mem_nil t)
  | cons u r ih =>
    intro acc
    rcases List.mem_cons.1 ht with he | hr
    · subst he
      refine ⟨?_, ?_, ?_⟩ <;> refine subset_foldl_insTri r _ ?_
      · exact subset_insVert _ _ (subset_insVert _ _ (mem_insVert_self _ _))
      · exact subset_insVert _ _ (mem_insVert_self _ _)
      · exact mem_insVert_self _ _
    · exact ih hr _

lemma mergedVerts_nodup (ts : List Triangle) : (mergedVerts ts).Nodup :=
  foldl_insTri_nodup ts [] List.nodup_nil

lemma mem_mergedVerts {t : Triangle} {ts : List Triangle} (ht : t ∈ ts) :
    t.v0 ∈ mergedVerts ts ∧ t.v1 ∈ mergedVerts ts ∧ t.v2 ∈ mergedVerts ts :=
  mem_foldl_insTri ht []

lemma vIdx_lt {verts : List Vec3} {v : Vec3} (h : v ∈ verts) :
    vIdx verts v < verts.length :=
  List.indexOf_lt_length.2 h

lemma getD_vIdx {verts : List Vec3} {v : Vec3} (h : v ∈ verts) :
    verts.getD (vIdx verts v) v3zero = v := by
  rw [List.getD_eq_getElem _ _ (vIdx_lt h)]
  exact (List.get_eq_getElem _ _).symm.trans (List.indexOf_get (vIdx_lt h))

lemma vIdx_inj {verts : List Vec3} {u v : Vec3} (hu : u ∈ verts) (hv : v ∈ verts)
    (h : vIdx verts u = vIdx verts v) : u = v := by
  rw [← getD_vIdx hu, ← getD_vIdx hv, h]

lemma vIdx_getD {verts : List Vec3} (hn : verts.Nodup) {i : ℕ}
    (hi : i < verts.length) : vIdx verts (verts.getD i v3zero) = i := by
  rw [List.getD_eq_getElem _ _ hi]
  exact List.indexOf_getElem hn i hi

lemma getD_inj {verts : List Vec3} (hn : verts.Nodup) {i j : ℕ}
    (hi : i < verts.length) (hj : j < verts.length)
    (h : verts.getD i v3zero = verts.getD j v3zero) : i = j := by
  rw [← vIdx_getD hn hi, ← vIdx_getD hn hj, h]

lemma sortKey3_eq_iff_perm {a b c a' b' c' : ℕ} :
    sortKey3 a b c = sortKey3 a' b' c' ↔ [a, b, c].Perm [a', b', c'] := by
  constructor
  · intro h
    have h1 : (sortKey3 a b c).Perm [a, b, c] := List.perm_insertionSort _ _
    have h2 : (sortKey3 a' b' c').Perm [a', b', c'] := List.perm_insertionSort _ _
    rw [h] at h1
    exact h1.symm.trans h2
  · intro h
    exact List.eq_of_perm_of_sorted
      ((List.perm_insertionSort _ [a, b, c]).trans
        (h.trans (List.perm_insertionSort _ [a', b', c']).symm))
      (List.sorted_insertionSort _ _) (List.sorted_insertionSort _ _)

/-- When no triangle is index-degenerate, the first pass of `cleanMesh` is a
plain map with degenerate count `0`. -/
lemma indexStage_no_degen (verts : List Vec3) :
    ∀ ts : List Triangle,
      (∀ t ∈ ts, vIdx verts t.v0 ≠ vIdx verts t.v1 ∧
        vIdx verts t.v1 ≠ vIdx verts t.v2 ∧ vIdx verts t.v2 ≠ vIdx verts t.v0) →
      indexStage verts ts =
        (ts.map fun t => (vIdx verts t.v0, vIdx verts t.v1, vIdx verts t.v2), 0) := by
  intro ts
  induction ts with
  | nil => intro _; rfl
  | cons t r ih =>
    intro h
    obtain ⟨h1, h2, h3⟩ := h t (List.mem_cons_self t r)
    rw [indexStage]
    rw [ih fun u hu => h u (List.mem_cons_of_mem _ hu),
      if_neg (by push_neg; exact ⟨h1, h2, h3⟩)]
    rfl

/-- When the canonical keys are pairwise distinct and unseen, the second
pass of `cleanMesh` keeps everything with duplicate count `0`. -/
lemma dedupStage_all_new :
    ∀ (l : List (ℕ × ℕ × ℕ)) (seen : List (List ℕ)),
      (l.map fun t => sortKey3 t.1 t.2.1 t.2.2).Nodup →
      (∀ t ∈ l, sortKey3 t.1 t.2.1 t.2.2 ∉ seen) →
      dedupStage seen l = (l, 0) := by
  intro l
  induction l with
  | nil => intro _ _ _; rfl
  | cons t r ih =>
    intro seen hnd hdisj
    rw [dedupStage]
    dsimp only
    rw [if_neg (hdisj t (List.mem_cons_self t r))]
    have hhead : sortKey3 t.1 t.2.1 t.2.2 ∉
        r.map fun u => sortKey3 u.1 u.2.1 u.2.2 :=
      (List.nodup_cons.1 (by simpa using hnd)).1
    rw [ih (sortKey3 t.1 t.2.1 t.2.2 :: seen)
      (List.nodup_cons.1 (by simpa using hnd)).2
      fun u hu => by
        simp only [List.mem_cons, not_or]
        exact ⟨fun he => hhead (he ▸ List.mem_map_of_mem _ hu),
          hdisj u (List.mem_cons_of_mem _ hu)⟩]

/-- The kept triples of the dedup pass have pairwise distinct canonical keys,
none of which is in `seen`. -/
lemma dedupStage_pairwise :
    ∀ (l : List (ℕ × ℕ × ℕ)) (seen : List (List ℕ)),
      ((dedupStage seen l).1.Pairwise fun p q =>
        sortKey3 p.1 p.2.1 p.2.2 ≠ sortKey3 q.1 q.2.1 q.2.2) ∧
      ∀ t ∈ (dedupStage seen l).1, sortKey3 t.1 t.2.1 t.2.2 ∉ seen := by
  intro l
  induction l with
  | nil => intro seen; exact ⟨List.Pairwise.nil, by simp [dedupStage]⟩
  | cons t r ih =>
    intro seen
    rw [dedupStage]
    dsimp only
    split_ifs with hseen
    · exact ih seen
    · obtain ⟨hp, hmem⟩ := ih (sortKey3 t.1 t.2.1 t.2.2 :: seen)
      refine ⟨List.pairwise_cons.2 ⟨fun q hq => ?_, hp⟩, ?_⟩
      · exact fun he => (hmem q hq) (he ▸ List.mem_cons_self _ _)
      · intro u hu
        rcases List.mem_cons.1 hu with he | hr
        · exact he ▸ hseen
        · exact fun hc => hmem u hr (List.mem_cons_of_mem _ hc)

/-- The dedup pass only keeps input triples. -/
lemma dedupStage_subset :
    ∀ (l : List (ℕ × ℕ × ℕ)) (seen : List (List ℕ)),
      (dedupStage seen l).1 ⊆ l := by
  intro l
  induction l with
  | nil => intro seen x hx; simp [dedupStage] at hx
  | cons t r ih =>
    intro seen x hx
    rw [dedupStage] at hx
    dsimp only at hx
    split_ifs at hx with hseen
    · exact List.mem_cons_of_mem _ (ih seen hx)
    · rcases List.mem_cons.1 hx with he | hr
      · exact he ▸ List.mem_cons_self _ _
      · exact List.mem_cons_of_mem _ (ih _ hr)

/-- Every triple kept by the first pass comes from an input triangle and has
pairwise distinct components. -/
lemma indexStage_mem (verts : List Vec3) :
    ∀ ts : List Triangle, ∀ tri ∈ (indexStage verts ts).1,
      (∃ t ∈ ts, tri =
        (vIdx verts t.v0, vIdx verts t.v1, vIdx verts t.v2)) ∧
      tri.1 ≠ tri.2.1 ∧ tri.2.1 ≠ tri.2.2 ∧ tri.2.2 ≠ tri.1 := by
  intro ts
  induction ts with
  | nil => intro tri htri; simp [indexStage] at htri
  | cons t r ih =>
    intro tri htri
    rw [indexStage] at htri
    split_ifs at htri with hdeg
    · obtain ⟨⟨u, hu, he⟩, hd⟩ := ih tri htri
      exact ⟨⟨u, List.mem_cons_of_mem _ hu, he⟩, hd⟩
    · rcases List.mem_cons.1 htri with he | hr
      · push_neg at hdeg
        exact ⟨⟨t, List.mem_cons_self t r, he⟩, by
          subst he; exact ⟨hdeg.1, hdeg.2.1, hdeg.2.2⟩⟩
      · obtain ⟨⟨u, hu, he⟩, hd⟩ := ih tri hr
        exact ⟨⟨u, List.mem_cons_of_mem _ hu, he⟩, hd⟩

/-- When every triple passes the area filter, the rebuild pass is a plain
map. -/
lemma rebuildStage_all_pass (s : ℚ → ℚ) (verts : List Vec3) :
    ∀ l : List (ℕ × ℕ × ℕ),
      (∀ t ∈ l, ¬(s (norm2 (cross
        (vsub (verts.getD t.2.1 v3zero) (verts.getD t.1 v3zero))
        (vsub (verts.getD t.2.2 v3zero) (verts.getD t.1 v3zero)))) ≤ eps10)) →
      rebuildStage s verts l = l.map fun t =>
        ⟨vdiv (cross (vsub (verts.getD t.2.1 v3zero) (verts.getD t.1 v3zero))
            (vsub (verts.getD t.2.2 v3zero) (verts.getD t.1 v3zero)))
          (s (norm2 (cross (vsub (verts.getD t.2.1 v3zero) (verts.getD t.1 v3zero))
            (vsub (verts.getD t.2.2 v3zero) (verts.getD t.1 v3zero))))),
          verts.getD t.1 v3zero, verts.getD t.2.1 v3zero,
          verts.getD t.2.2 v3zero⟩ := by
  intro l
  induction l with
  | nil => intro _; rfl
  | cons t r ih =>
    intro h
    rw [rebuildStage_cons, if_neg (h t (List.mem_cons_self t r)),
      ih fun u hu => h u (List.mem_cons_of_mem _ hu)]
    rfl

/-- Membership characterization of the rebuild pass. -/
lemma mem_rebuildStage {s : ℚ → ℚ} {verts : List Vec3}
    {l : List (ℕ × ℕ × ℕ)} {t' : Triangle} :
    t' ∈ rebuildStage s verts l ↔ ∃ t ∈ l,
      ¬(s (norm2 (cross
        (vsub (verts.getD t.2.1 v3zero) (verts.getD t.1 v3zero))
        (vsub (verts.getD t.2.2 v3zero) (verts.getD t.1 v3zero)))) ≤ eps10) ∧
      t' = ⟨vdiv (cross (vsub (verts.getD t.2.1 v3zero) (verts.getD t.1 v3zero))
            (vsub (verts.getD t.2.2 v3zero) (verts.getD t.1 v3zero)))
          (s (norm2 (cross (vsub (verts.getD t.2.1 v3zero) (verts.getD t.1 v3zero))
            (vsub (verts.getD t.2.2 v3zero) (verts.getD t.1 v3zero))))),
          verts.getD t.1 v3zero, verts.getD t.2.1 v3zero,
          verts.getD t.2.2 v3zero⟩ := by
  unfold rebuildStage
  rw [List.mem_filterMap]
  constructor
  · rintro ⟨t, ht, he⟩
    dsimp only at he
    split_ifs at he with hc
    exact ⟨t, ht, hc, (Option.some_inj.1 he).symm⟩
  · rintro ⟨t, ht, hc, he⟩
    refine ⟨t, ht, ?_⟩
    dsimp only
    rw [if_neg hc, he]

/-- `cleanMesh` is the identity (with zero removal counts) on any list whose
triangles have pairwise distinct positions, pass the area filter, carry the
recomputed unit normal, and have pairwise distinct position multisets. -/
lemma cleanMesh_fixed (s : ℚ → ℚ) (O : List Triangle)
    (hO : ∀ t' ∈ O, t'.v0 ≠ t'.v1 ∧ t'.v1 ≠ t'.v2 ∧ t'.v2 ≠ t'.v0 ∧
      ¬(s (norm2 (cross (vsub t'.v1 t'.v0) (vsub t'.v2 t'.v0))) ≤ eps10) ∧
      t'.normal = vdiv (cross (vsub t'.v1 t'.v0) (vsub t'.v2 t'.v0))
        (s (norm2 (cross (vsub t'.v1 t'.v0) (vsub t'.v2 t'.v0)))))
    (hP : O.Pairwise fun t t' =>
      ¬[t.v0, t.v1, t.v2].Perm [t'.v0, t'.v1, t'.v2]) :
    (cleanMesh s O).1 = O ∧ (cleanMesh s O).2.dupTris = 0 ∧
    (cleanMesh s O).2.degenerate = 0 ∧
    (cleanMesh s O).2.trisAfter = O.length := by
  rcases hOc : O with - | ⟨o, O'⟩
  · subst hOc; exact ⟨rfl, rfl, rfl, rfl⟩
  rw [← hOc]
  have hne : O ≠ [] := by rw [hOc]; simp
  have hVn : (mergedVerts O).Nodup := mergedVerts_nodup O
  have hmem : ∀ t' ∈ O, t'.v0 ∈ mergedVerts O ∧ t'.v1 ∈ mergedVerts O ∧
      t'.v2 ∈ mergedVerts O := fun t' ht' => mem_mergedVerts ht'
  have hS1 : indexStage (mergedVerts O) O = (O.map fun t' =>
      (vIdx (mergedVerts O) t'.v0, vIdx (mergedVerts O) t'.v1,
        vIdx (mergedVerts O) t'.v2), 0) := by
    refine indexStage_no_degen _ O fun t' ht' => ?_
    obtain ⟨h01, h12, h20, -, -⟩ := hO t' ht'
    obtain ⟨hm0, hm1, hm2⟩ := hmem t' ht'
    exact ⟨fun hc => h01 (vIdx_inj hm0 hm1 hc),
      fun hc => h12 (vIdx_inj hm1 hm2 hc),
      fun hc => h20 (vIdx_inj hm2 hm0 hc)⟩
  have hperm_of_key : ∀ t' ∈ O, ∀ u' ∈ O,
      sortKey3 (vIdx (mergedVerts O) t'.v0) (vIdx (mergedVerts O) t'.v1)
          (vIdx (mergedVerts O) t'.v2) =
        sortKey3 (vIdx (mergedVerts O) u'.v0) (vIdx (mergedVerts O) u'.v1)
          (vIdx (mergedVerts O) u'.v2) →
      [t'.v0, t'.v1, t'.v2].Perm [u'.v0, u'.v1, u'.v2] := by
    intro t' ht' u' hu' hk
    obtain ⟨hm0, hm1, hm2⟩ := hmem t' ht'
    obtain ⟨hn0, hn1, hn2⟩ := hmem u' hu'
    have hp := (sortKey3_eq_iff_perm.1 hk).map
      fun i => (mergedVerts O).getD i v3zero
    simp only [List.map_cons, List.map_nil] at hp
    rw [getD_vIdx hm0, getD_vIdx hm1, getD_vIdx hm2, getD_vIdx hn0,
      getD_vIdx hn1, getD_vIdx hn2] at hp
    exact hp
  have hkeys : ((O.map fun t' =>
      (vIdx (mergedVerts O) t'.v0, vIdx (mergedVerts O) t'.v1,
        vIdx (mergedVerts O) t'.v2)).map fun t =>
          sortKey3 t.1 t.2.1 t.2.2).Nodup := by
    rw [List.map_map]
    exact List.pairwise_map.2 (hP.imp_of_mem fun {t'} {u'} ht' hu' hne hk =>
      hne (hperm_of_key t' ht' u' hu' hk))
  have hS2 : dedupStage [] (O.map fun t' =>
      (vIdx (mergedVerts O) t'.v0, vIdx (mergedVerts O) t'.v1,
        vIdx (mergedVerts O) t'.v2)) = (O.map fun t' =>
      (vIdx (mergedVerts O) t'.v0, vIdx (mergedVerts O) t'.v1,
        vIdx (mergedVerts O) t'.v2), 0) :=
    dedupStage_all_new _ [] hkeys (by simp)
  have hS3 : rebuildStage s (mergedVerts O) (O.map fun t' =>
      (vIdx (mergedVerts O) t'.v0, vIdx (mergedVerts O) t'.v1,
        vIdx (mergedVerts O) t'.v2)) = O := by
    rw [rebuildStage_all_pass]
    · rw [List.map_map]
      refine (List.map_congr_left fun t' ht' => ?_).trans (List.map_id O)
      obtain ⟨-, -, -, -, hnorm⟩ := hO t' ht'
      obtain ⟨hm0, hm1, hm2⟩ := hmem t' ht'
      cases t' with
      | mk nrm w0 w1 w2 =>
        simp only [Function.comp_apply, getD_vIdx hm0, getD_vIdx hm1,
          getD_vIdx hm2] at hnorm ⊢
        rw [id_eq, ← hnorm]
    · intro t ht
      obtain ⟨t', ht', he⟩ := List.mem_map.1 ht
      obtain ⟨-, -, -, hpass, -⟩ := hO t' ht'
      obtain ⟨hm0, hm1, hm2⟩ := hmem t' ht'
      rw [← he]
      dsimp only
      rw [getD_vIdx hm0, getD_vIdx hm1, getD_vIdx hm2]
      exact hpass
  have hne : O ≠ [] := by rw [hOc]; simp
  unfold cleanMesh
  rw [if_neg hne]
  dsimp only
  rw [hS1]
  dsimp only
  rw [hS2]
  dsimp only
  rw [hS3]
  exact ⟨rfl, rfl, rfl, rfl⟩

/-- The output of a nonempty `cleanMesh` run is the rebuild of the
deduplicated indexing. -/
lemma cleanMesh_out_eq (s : ℚ → ℚ) {ts : List Triangle} (hne : ts ≠ []) :
    (cleanMesh s ts).1 = rebuildStage s (mergedVerts ts)
      (dedupStage [] (indexStage (mergedVerts ts) ts).1).1 := by
  unfold cleanMesh
  rw [if_neg hne]

/-- Every output triangle of `cleanMesh` has pairwise distinct positions,
passes the area filter on its own positions, and carries the recomputed
unit normal. -/
lemma cleanMesh_out_shape (s : ℚ → ℚ) (ts : List Triangle) :
    ∀ t' ∈ (cleanMesh s ts).1,
      t'.v0 ≠ t'.v1 ∧ t'.v1 ≠ t'.v2 ∧ t'.v2 ≠ t'.v0 ∧
      ¬(s (norm2 (cross (vsub t'.v1 t'.v0) (vsub t'.v2 t'.v0))) ≤ eps10) ∧
      t'.normal = vdiv (cross (vsub t'.v1 t'.v0) (vsub t'.v2 t'.v0))
        (s (norm2 (cross (vsub t'.v1 t'.v0) (vsub t'.v2 t'.v0)))) := by
  intro t' ht'
  rcases htc : ts with - | ⟨t0, ts'⟩
  · subst htc; simp [cleanMesh] at ht'
  have hne : ts ≠ [] := by rw [htc]; simp
  rw [cleanMesh_out_eq s hne] at ht'
  obtain ⟨tri, htri, hpass, he⟩ := mem_rebuildStage.1 ht'
  have htriind : tri ∈ (indexStage (mergedVerts ts) ts).1 :=
    dedupStage_subset _ _ htri
  obtain ⟨⟨t, ht, heq⟩, h1, h2, h3⟩ := indexStage_mem _ ts tri htriind
  obtain ⟨hm0, hm1, hm2⟩ := mem_mergedVerts ht
  have hv1 : tri.1 < (mergedVerts ts).length := by rw [heq]; exact vIdx_lt hm0
  have hv2 : tri.2.1 < (mergedVerts ts).length := by
    rw [heq]; exact vIdx_lt hm1
  have hv3 : tri.2.2 < (mergedVerts ts).length := by
    rw [heq]; exact vIdx_lt hm2
  subst he
  refine ⟨?_, ?_, ?_, hpass, rfl⟩
  · exact fun hc => h1 (getD_inj (mergedVerts_nodup ts) hv1 hv2 hc)
  · exact fun hc => h2 (getD_inj (mergedVerts_nodup ts) hv2 hv3 hc)
  · exact fun hc => h3 (getD_inj (mergedVerts_nodup ts) hv3 hv1 hc)

/-- Distinct output triangles of `cleanMesh` have distinct position
multisets (that is what the dedup pass guarantees). -/
lemma cleanMesh_out_pairwise (s : ℚ → ℚ) (ts : List Triangle) :
    (cleanMesh s ts).1.Pairwise fun t t' =>
      ¬[t.v0, t.v1, t.v2].Perm [t'.v0, t'.v1, t'.v2] := by
  rcases htc : ts with - | ⟨t0, ts'⟩
  · simp [cleanMesh]
  rw [← htc]
  have hne : ts ≠ [] := by rw [htc]; simp
  rw [cleanMesh_out_eq s hne]
  unfold rebuildStage
  rw [List.pairwise_filterMap]
  have hD := dedupStage_pairwise (indexStage (mergedVerts ts) ts).1 []
  refine hD.1.imp_of_mem ?_
  intro tri tri' htri htri' hkne b hb b' hb'
  have hval : ∀ u ∈ (dedupStage [] (indexStage (mergedVerts ts) ts).1).1,
      u.1 < (mergedVerts ts).length ∧ u.2.1 < (mergedVerts ts).length ∧
        u.2.2 < (mergedVerts ts).length := by
    intro u hu
    obtain ⟨⟨t, ht, heq⟩, -⟩ :=
      indexStage_mem _ ts u (dedupStage_subset _ _ hu)
    obtain ⟨hm0, hm1, hm2⟩ := mem_mergedVerts ht
    exact ⟨by rw [heq]; exact vIdx_lt hm0, by rw [heq]; exact vIdx_lt hm1,
      by rw [heq]; exact vIdx_lt hm2⟩
  obtain ⟨hu1, hu2, hu3⟩ := hval tri htri
  obtain ⟨hw1, hw2, hw3⟩ := hval tri' htri'
  simp only [Option.mem_def] at hb hb'
  split_ifs at hb hb' with hc hc'
  rw [← Option.some_inj.1 hb, ← Option.some_inj.1 hb']
  intro hperm
  have hidc := hperm.map (vIdx (mergedVerts ts))
  simp only [List.map_cons, List.map_nil] at hidc
  rw [vIdx_getD (mergedVerts_nodup ts) hu1,
    vIdx_getD (mergedVerts_nodup ts) hu2,
    vIdx_getD (mergedVerts_nodup ts) hu3,
    vIdx_getD (mergedVerts_nodup ts) hw1,
    vIdx_getD (mergedVerts_nodup ts) hw2,
    vIdx_getD (mergedVerts_nodup ts) hw3] at hidc
  exact hkne (sortKey3_eq_iff_perm.2
    (by simpa using hidc))

/-- The reported after-count of `cleanMesh` is the output length. -/
lemma cleanMesh_trisAfter (s : ℚ → ℚ) (ts : List Triangle) :
    (cleanMesh s ts).2.trisAfter = (cleanMesh s ts).1.length := by
  unfold cleanMesh
  split_ifs <;> rfl

/-- C8: `cleanMesh` is idempotent — a second application returns the same
triangle list (hence the same triangle count), removes no further
duplicates and no further degenerates, and reports the same after-count. -/
theorem C8_cleanMesh_idempotent (s : ℚ → ℚ) (ts : List Triangle) :
    (cleanMesh s (cleanMesh s ts).1).1 = (cleanMesh s ts).1 ∧
    (cleanMesh s (cleanMesh s ts).1).2.dupTris = 0 ∧
    (cleanMesh s (cleanMesh s ts).1).2.degenerate = 0 ∧
    (cleanMesh s (cleanMesh s ts).1).2.trisAfter =
      (cleanMesh s ts).2.trisAfter := by
  obtain ⟨h1, h2, h3, h4⟩ := cleanMesh_fixed s (cleanMesh s ts).1
    (cleanMesh_out_shape s ts) (cleanMesh_out_pairwise s ts)
  exact ⟨h1, h2, h3, by rw [h4, cleanMesh_trisAfter]⟩

/-- Number of boundary directed edges not yet marked used — the decreasing
measure of both `addCaps` loops. -/
def unusedCount (bes : List DirectedEdge) (used : List (ℕ × ℕ)) : ℕ :=
  (bes.filter fun e => decide ((e.src, e.dst) ∉ used)).length

lemma unusedCount_le (bes : List DirectedEdge) (used : List (ℕ × ℕ)) :
    unusedCount bes used ≤ bes.length :=
  List.length_filter_le _ _

lemma unusedCount_mono (bes : List DirectedEdge) {used used' : List (ℕ × ℕ)}
    (h : used ⊆ used') : unusedCount bes used' ≤ unusedCount bes used :=
  (List.monotone_filter_right bes fun e hq => by
    simp only [decide_eq_true_eq] at hq ⊢
    exact fun hc => hq (h hc)).length_le

lemma unusedCount_cons_lt (bes : List DirectedEdge) (used : List (ℕ × ℕ))
    {e : DirectedEdge} (he : e ∈ bes) (hu : (e.src, e.dst) ∉ used) :
    unusedCount bes ((e.src, e.dst) :: used) < unusedCount bes used := by
  have hsub : List.Sublist
      (bes.filter fun x => decide ((x.src, x.dst) ∉ (e.src, e.dst) :: used))
      (bes.filter fun x => decide ((x.src, x.dst) ∉ used)) :=
    List.monotone_filter_right bes fun x hq => by
      simp only [decide_eq_true_eq, List.mem_cons, not_or] at hq ⊢
      exact hq.2
  refine lt_of_le_of_ne hsub.length_le fun hlen => ?_
  have heq := hsub.eq_of_length hlen
  have hmem : e ∈ bes.filter fun x => decide ((x.src, x.dst) ∉ used) :=
    List.mem_filter.2 ⟨he, by simpa using hu⟩
  rw [← heq] at hmem
  have hcon := (List.mem_filter.1 hmem).2
  simp at hcon

lemma pickNext_spec {used : List (ℕ × ℕ)} {bes : List DirectedEdge} {v nv nt : ℕ}
    (h : pickNext used bes v = some (nv, nt)) :
    (∃ e ∈ bes, e.src = v ∧ e.dst = nv) ∧ (v, nv) ∉ used := by
  unfold pickNext nextList at h
  have hp := List.find?_some h
  have hm := List.mem_of_find?_eq_some h
  obtain ⟨e, hef, hee⟩ := List.mem_map.1 hm
  obtain ⟨heb, hesrc⟩ := List.mem_filter.1 hef
  simp only [decide_eq_true_eq] at hp hesrc
  have hdst : e.dst = nv := by
    have := congrArg Prod.fst hee
    simpa using this
  exact ⟨⟨e, heb, hesrc, hdst⟩, by simpa using hp⟩

/-- Totality and used-set tracking for the inner `while` loop: with fuel
above the unused-edge count the trace completes, the used set only grows,
every new used pair is a boundary directed edge, and `Nodup` is
preserved. -/
lemma traceWhile_total (s : ℚ → ℚ) (m : Mesh) (bes : List DirectedEdge)
    (start : ℕ) :
    ∀ (fuel cur : ℕ) (st : TraceState),
      unusedCount bes st.used < fuel →
      ∃ st', traceWhile s m bes start fuel cur st = some st' ∧
        st.used ⊆ st'.used ∧
        (∀ p ∈ st'.used, p ∈ st.used ∨ ∃ e ∈ bes, p = (e.src, e.dst)) ∧
        (st.used.Nodup → st'.used.Nodup) := by
  intro fuel
  induction fuel with
  | zero => intro cur st h; exact absurd h (Nat.not_lt_zero _)
  | succ fuel ih =>
    intro cur st hfuel
    rw [traceWhile]
    by_cases hcs : cur = start
    · rw [if_pos hcs]
      exact ⟨st, rfl, List.Subset.refl _, fun p hp => Or.inl hp, id⟩
    rw [if_neg hcs]
    cases hpick : pickNext st.used bes cur with
    | none =>
      exact ⟨st, rfl, List.Subset.refl _, fun p hp => Or.inl hp, id⟩
    | some pr =>
      obtain ⟨nv, nt⟩ := pr
      dsimp only
      obtain ⟨⟨e, hebes, hesrc, hedst⟩, hunused⟩ := pickNext_spec hpick
      have hpair : (e.src, e.dst) = (cur, nv) := by rw [hesrc, hedst]
      have hdec : unusedCount bes ((cur, nv) :: st.used) <
          unusedCount bes st.used := by
        rw [← hpair]
        exact unusedCount_cons_lt bes st.used hebes (hpair ▸ hunused)
      have hfuel' : ∀ tri lp cp,
          unusedCount bes (TraceState.mk ((cur, nv) :: st.used) lp tri cp).used
            < fuel := by
        intro tri lp cp
        have := Nat.lt_succ_iff.1 hfuel
        exact lt_of_lt_of_le hdec this
      by_cases hnv0 : nv = 0
      · rw [if_pos hnv0]
        exact ⟨st, rfl, List.Subset.refl _, fun p hp => Or.inl hp, id⟩
      rw [if_neg hnv0]
      by_cases hloop : nv ∈ st.loop
      · rw [if_pos hloop]
        by_cases hnvs : nv = start
        · rw [if_pos hnvs]
          refine ⟨_, rfl, List.subset_cons_self _ _, fun p hp => ?_, fun h => ?_⟩
          · rcases List.mem_cons.1 hp with he' | hu
            · exact Or.inr ⟨e, hebes, by rw [he', hpair]⟩
            · exact Or.inl hu
          · exact List.nodup_cons.2 ⟨hunused, h⟩
        · rw [if_neg hnvs]
          obtain ⟨st', hrec, hsub, hdom, hnd⟩ := ih nv _ (hfuel' _ _ _)
          refine ⟨st', hrec, (List.subset_cons_self _ _).trans hsub,
            fun p hp => ?_, fun h => hnd (List.nodup_cons.2 ⟨hunused, h⟩)⟩
          rcases hdom p hp with hin | hex
          · rcases List.mem_cons.1 hin with he' | hu
            · exact Or.inr ⟨e, hebes, by rw [he', hpair]⟩
            · exact Or.inl hu
          · exact Or.inr hex
      · rw [if_neg hloop]
        obtain ⟨st', hrec, hsub, hdom, hnd⟩ := ih nv _ (hfuel' _ _ _)
        refine ⟨st', hrec, (List.subset_cons_self _ _).trans hsub,
          fun p hp => ?_, fun h => hnd (List.nodup_cons.2 ⟨hunused, h⟩)⟩
        rcases hdom p hp with hin | hex
        · rcases List.mem_cons.1 hin with he' | hu
          · exact Or.inr ⟨e, hebes, by rw [he', hpair]⟩
          · exact Or.inl hu
        · exact Or.inr hex

/-- Totality and full consumption for the outer loop of `addCaps`. -/
lemma capAllLoops_total (s : ℚ → ℚ) (m : Mesh) (bes : List DirectedEdge) :
    ∀ (fuel : ℕ) (used : List (ℕ × ℕ)) (acc : List Triangle),
      unusedCount bes used < fuel →
      used.Nodup →
      (∀ p ∈ used, ∃ e ∈ bes, p = (e.src, e.dst)) →
      ∃ caps used', capAllLoops s m bes fuel used acc = some (caps, used') ∧
        used ⊆ used' ∧ used'.Nodup ∧
        (∀ p ∈ used', ∃ e ∈ bes, p = (e.src, e.dst)) ∧
        ∀ e ∈ bes, (e.src, e.dst) ∈ used' := by
  intro fuel
  induction fuel with
  | zero => intro used acc h; exact absurd h (Nat.not_lt_zero _)
  | succ fuel ih =>
    intro used acc hfuel hnd hdom
    rw [capAllLoops]
    cases hfind : bes.find? fun e => decide ((e.src, e.dst) ∉ used) with
    | none =>
      refine ⟨acc, used, rfl, List.Subset.refl _, hnd, hdom, fun e he => ?_⟩
      have := List.find?_eq_none.1 hfind e he
      simpa using this
    | some e =>
      have hpred : (e.src, e.dst) ∉ used := by
        simpa using List.find?_some hfind
      have hebes := List.mem_of_find?_eq_some hfind
      obtain ⟨st', htr, hsub, hdom', hnd'⟩ := traceWhile_total s m bes e.src
        (bes.length + 1) e.dst
        ⟨(e.src, e.dst) :: used, [e.src, e.dst], [e.triIdx, e.triIdx], []⟩
        (Nat.lt_succ_of_le (unusedCount_le bes _))
      dsimp only
      rw [htr]
      have hnd0 : ((e.src, e.dst) :: used).Nodup :=
        List.nodup_cons.2 ⟨hpred, hnd⟩
      have hdec : unusedCount bes st'.used < unusedCount bes used :=
        lt_of_le_of_lt (unusedCount_mono bes hsub)
          (unusedCount_cons_lt bes used hebes hpred)
      obtain ⟨caps, used', hrec, hsub2, hnd2, hdom2, hall2⟩ := ih st'.used
        (acc ++ st'.caps ++ capOneLoop s m st'.loop (st'.triOnLoop.getD 0 0))
        (by have := Nat.lt_succ_iff.1 hfuel; omega)
        (hnd' hnd0)
        (fun p hp => (hdom' p hp).elim
          (fun hin => (List.mem_cons.1 hin).elim
            (fun he' => ⟨e, hebes, he'⟩) (fun hu => hdom p hu))
          id)
      exact ⟨caps, used', hrec,
        (List.subset_cons_self _ _).trans (hsub.trans hsub2), hnd2, hdom2, hall2⟩

/-- Whatever `capAllLoops` returns extends its incoming cap accumulator:
contributions already emitted are never discarded by later attempts. -/
lemma capAllLoops_acc_extends (s : ℚ → ℚ) (m : Mesh) (bes : List DirectedEdge) :
    ∀ (fuel : ℕ) (used : List (ℕ × ℕ)) (acc caps : List Triangle)
      (used' : List (ℕ × ℕ)),
      capAllLoops s m bes fuel used acc = some (caps, used') →
      ∃ rest, caps = acc ++ rest := by
  intro fuel
  induction fuel with
  | zero =>
    intro used acc caps used' h
    exact absurd h (by simp [capAllLoops])
  | succ n ih =>
    intro used acc caps used' h
    rw [capAllLoops] at h
    cases hfind : bes.find? fun e => decide ((e.src, e.dst) ∉ used) with
    | none =>
      rw [hfind] at h
      dsimp only at h
      simp only [Option.some_inj, Prod.mk.injEq] at h
      exact ⟨[], by rw [← h.1, List.append_nil]⟩
    | some e =>
      rw [hfind] at h
      dsimp only at h
      cases htr : traceWhile s m bes e.src (bes.length + 1) e.dst
          ⟨(e.src, e.dst) :: used, [e.src, e.dst], [e.triIdx, e.triIdx], []⟩ with
      | none =>
        rw [htr] at h
        exact absurd h (by simp)
      | some st =>
        rw [htr] at h
        dsimp only at h
        obtain ⟨rest, hrest⟩ := ih st.used _ caps used' h
        exact ⟨st.caps ++ capOneLoop s m st.loop (st.triOnLoop.getD 0 0) ++ rest,
          by rw [hrest]; simp [List.append_assoc]⟩

/-- C2 amended: on every subset, the loop tracing of `addCaps` terminates
(the fueled model completes within `|boundary| + 1` attempts of
`|boundary| + 1` steps each, so `addCaps` always returns a value), and
every boundary directed edge ends up marked used exactly once across all
trace attempts.  A trace that hits a dead end (no unused successor — or a
successor with vertex index `0`, which the `nextV == 0` test conflates with
a dead end) stops extending its path and returns its state unchanged; but
the path a trace ends in, closed or dead-ended, is still handed to the
capping step: its `capOneLoop` cap triangles (emitted exactly when the path
has at least 3 vertices, per surviving edge) appear contiguously in the
caps returned by the outer loop. -/
theorem C2_loop_tracing_terminates (s : ℚ → ℚ) (m : Mesh) (tis : List ℕ) :
    ((∃ caps used, capAllLoops s m (boundaryEdges m tis)
        ((boundaryEdges m tis).length + 1) [] [] = some (caps, used) ∧
      used.Nodup ∧
      (∀ p ∈ used, ∃ e ∈ boundaryEdges m tis, p = (e.src, e.dst)) ∧
      (∀ e ∈ boundaryEdges m tis, (e.src, e.dst) ∈ used)) ∧
    (addCaps s m tis).isSome = true) ∧
    (∀ (start cur fuel : ℕ) (st : TraceState), cur ≠ start →
      (pickNext st.used (boundaryEdges m tis) cur = none ∨
        ∃ nt, pickNext st.used (boundaryEdges m tis) cur = some (0, nt)) →
      traceWhile s m (boundaryEdges m tis) start (fuel + 1) cur st = some st) ∧
    (∀ (fuel : ℕ) (used : List (ℕ × ℕ)) (acc caps : List Triangle)
        (used' : List (ℕ × ℕ)) (e : DirectedEdge) (st : TraceState),
      (boundaryEdges m tis).find?
          (fun e2 => decide ((e2.src, e2.dst) ∉ used)) = some e →
      traceWhile s m (boundaryEdges m tis) e.src
          ((boundaryEdges m tis).length + 1) e.dst
          ⟨(e.src, e.dst) :: used, [e.src, e.dst], [e.triIdx, e.triIdx], []⟩ =
        some st →
      capAllLoops s m (boundaryEdges m tis) (fuel + 1) used acc =
        some (caps, used') →
      ∃ pre post,
        caps = pre ++ capOneLoop s m st.loop (st.triOnLoop.getD 0 0) ++ post) := by
  refine ⟨⟨?_, ?_⟩, ?_, ?_⟩
  · obtain ⟨caps, used, hc, -, hnd, hdom, hall⟩ :=
      capAllLoops_total s m (boundaryEdges m tis)
        ((boundaryEdges m tis).length + 1) [] []
        (Nat.lt_succ_of_le (unusedCount_le _ _)) List.nodup_nil (by simp)
    exact ⟨caps, used, hc, hnd, hdom, hall⟩
  · obtain ⟨caps, used, hc, -, hnd, hdom, hall⟩ :=
      capAllLoops_total s m (boundaryEdges m tis)
        ((boundaryEdges m tis).length + 1) [] []
        (Nat.lt_succ_of_le (unusedCount_le _ _)) List.nodup_nil (by simp)
    unfold addCaps
    dsimp only
    split_ifs with hv hb
    · rfl
    · rfl
    · rw [hc]
      rfl
  · intro start cur fuel st hne hdead
    rw [traceWhile]
    rw [if_neg hne]
    rcases hdead with hnone | ⟨nt, hsome⟩
    · rw [hnone]
    · rw [hsome]
      dsimp only
      rw [if_pos rfl]
  · intro fuel used acc caps used' e st hfind htr hcap
    rw [capAllLoops] at hcap
    rw [hfind] at hcap
    dsimp only at hcap
    rw [htr] at hcap
    dsimp only at hcap
    obtain ⟨rest, hrest⟩ := capAllLoops_acc_extends s m (boundaryEdges m tis)
      fuel st.used _ caps used' hcap
    exact ⟨acc ++ st.caps, rest, hrest⟩

/-- C3 amended: for a loop of at least 3 vertices, the emitted cap triangles
are exactly: for each loop edge `(a, b) = (loop[i], loop[(i+1) mod n])`
whose raw cap normal `(va-C) × (vb-C)` has `s`-length above `1e-10`, the
triangle `(C, va, vb)` with normal `normalize((va-C) × (vb-C))` when the dot
product of that normal with the geometry-derived normal of the *single
per-loop representative triangle* `rep` (the triangle recorded with the
loop's first vertex during tracing — not the per-edge owner, which is the
correction this amendment makes) is non-negative, and otherwise
`(C, vb, va)` with the normal negated. -/
theorem C3_cap_orientation (s : ℚ → ℚ) (m : Mesh) (loop : List ℕ) (rep : ℕ)
    (hlen : ¬loop.length < 3) :
    ∀ t : Triangle, t ∈ capOneLoop s m loop rep ↔ ∃ i < loop.length,
      ¬(s (norm2 (capCross m loop i)) ≤ eps10) ∧
      t = if 0 ≤ dot (vdiv (capCross m loop i) (s (norm2 (capCross m loop i))))
            (getTriangle s m rep).normal then
          ⟨vdiv (capCross m loop i) (s (norm2 (capCross m loop i))),
            loopCentroid m loop, loopVert m loop i,
            loopVert m loop ((i + 1) % loop.length)⟩
        else
          ⟨vneg (vdiv (capCross m loop i) (s (norm2 (capCross m loop i)))),
            loopCentroid m loop, loopVert m loop ((i + 1) % loop.length),
            loopVert m loop i⟩ := by
  intro t
  unfold capOneLoop
  rw [if_neg hlen]
  rw [List.mem_filterMap]
  constructor
  · rintro ⟨i, hi, he⟩
    rw [List.mem_range] at hi
    dsimp only at he
    split_ifs at he with hc hd
    · exact ⟨i, hi, hc, by rw [if_pos hd]; exact (Option.some_inj.1 he).symm⟩
    · exact ⟨i, hi, hc, by rw [if_neg hd]; exact (Option.some_inj.1 he).symm⟩
  · rintro ⟨i, hi, hc, he⟩
    refine ⟨i, List.mem_range.2 hi, ?_⟩
    dsimp only
    rw [if_neg hc]
    split_ifs at he ⊢ with hd
    · rw [he]
    · rw [he]

/-- C3 amended witness: the first cap of the single-triangle loop
`[0, 1, 2]` on `oneTriMesh`, oriented by triangle `0`'s normal. -/
theorem C3_cap_orientation_witness :
    (⟨⟨0, 0, 1⟩, ⟨1/3, 1/3, 0⟩, ⟨0, 0, 0⟩, ⟨1, 0, 0⟩⟩ : Triangle) ∈
      capOneLoop ratSqrt oneTriMesh [0, 1, 2] 0 := by
  refine ((C3_cap_orientation ratSqrt oneTriMesh [0, 1, 2] 0 (by decide)) _).mpr ?_
  refine ⟨0, by decide, by with_unfolding_all decide, ?_⟩
  with_unfolding_all rfl

/-- A nonzero cross product of difference vectors separates the three
points involved. -/
lemma cross_ne_zero_sep {u v w : Vec3}
    (h : cross (vsub u w) (vsub v w) ≠ v3zero) : u ≠ v ∧ u ≠ w ∧ v ≠ w := by
  refine ⟨?_, ?_, ?_⟩ <;> rintro rfl <;> apply h
  · show Vec3.mk _ _ _ = _
    simp only [cross, vsub, v3zero, Vec3.mk.injEq]
    refine ⟨by ring, by ring, by ring⟩
  · show Vec3.mk _ _ _ = _
    simp only [cross, vsub, v3zero, Vec3.mk.injEq]
    refine ⟨by ring, by ring, by ring⟩
  · show Vec3.mk _ _ _ = _
    simp only [cross, vsub, v3zero, Vec3.mk.injEq]
    refine ⟨by ring, by ring, by ring⟩

lemma multiset_rev3 {α : Type} (x y z : α) :
    ({x, y, z} : Multiset α) = {z, y, x} := by
  show x ::ₘ y ::ₘ z ::ₘ 0 = z ::ₘ y ::ₘ x ::ₘ 0
  rw [Multiset.cons_swap x y, Multiset.cons_swap x z, Multiset.cons_swap y z]

/-- The undirected edges of a cap triangle do not depend on its winding. -/
lemma triEdgeSet_mk_swap (n cC x y : Vec3) :
    triEdgeSet ⟨n, cC, y, x⟩ =
      {Sym2.mk (cC, x), Sym2.mk (x, y), Sym2.mk (y, cC)} := by
  show ({Sym2.mk (cC, y), Sym2.mk (y, x), Sym2.mk (x, cC)} : Multiset _) = _
  rw [Sym2.eq_swap (a := cC) (b := y), Sym2.eq_swap (a := y) (b := x),
    Sym2.eq_swap (a := x) (b := cC)]
  exact multiset_rev3 _ _ _

/-- The three caps of the single-triangle loop contribute, regardless of
their orientation, the undirected edge sets of the centroid fan. -/
lemma capOneLoop_single_edgeSets (s : ℚ → ℚ) (a b c : Vec3)
    (hs0 : ¬s (norm2 (capCross (singleTriMesh a b c) [0, 1, 2] 0)) ≤ eps10)
    (hs1 : ¬s (norm2 (capCross (singleTriMesh a b c) [0, 1, 2] 1)) ≤ eps10)
    (hs2 : ¬s (norm2 (capCross (singleTriMesh a b c) [0, 1, 2] 2)) ≤ eps10) :
    (capOneLoop s (singleTriMesh a b c) [0, 1, 2] 0).map triEdgeSet =
      [{Sym2.mk (loopCentroid (singleTriMesh a b c) [0, 1, 2], a),
          Sym2.mk (a, b),
          Sym2.mk (b, loopCentroid (singleTriMesh a b c) [0, 1, 2])},
        {Sym2.mk (loopCentroid (singleTriMesh a b c) [0, 1, 2], b),
          Sym2.mk (b, c),
          Sym2.mk (c, loopCentroid (singleTriMesh a b c) [0, 1, 2])},
        {Sym2.mk (loopCentroid (singleTriMesh a b c) [0, 1, 2], c),
          Sym2.mk (c, a),
          Sym2.mk (a, loopCentroid (singleTriMesh a b c) [0, 1, 2])}] := by
  unfold capOneLoop
  rw [if_neg (by decide)]
  show (List.filterMap _ [0, 1, 2]).map _ = _
  rw [List.filterMap_cons, List.filterMap_cons, List.filterMap_cons,
    List.filterMap_nil]
  dsimp only
  rw [if_neg hs0, if_neg hs1, if_neg hs2]
  split_ifs <;>
    · simp only [List.map_cons, List.map_nil]
      refine congrArg₂ _ ?_ (congrArg₂ _ ?_ (congrArg₂ _ ?_ rfl)) <;>
        first
        | rfl
        | exact triEdgeSet_mk_swap _ _ _ _

set_option maxHeartbeats 2000000 in
/-- C5: for a mesh consisting of one single isolated triangle (indices
`(0,1,2)`, arbitrary non-degenerate positions: each cap cross product is
nonzero and its `s`-length exceeds `1e-10`), `addCaps` on the subset `[0]`
produces exactly 3 cap triangles — 4 output triangles with the original —
and in the resulting 4-triangle set every undirected (position-pair) edge
that occurs at all has incidence exactly 2, i.e. the capped set is
watertight. -/
theorem C5_single_triangle_capping (s : ℚ → ℚ) (a b c : Vec3)
    (h0 : capCross (singleTriMesh a b c) [0, 1, 2] 0 ≠ v3zero)
    (h1 : capCross (singleTriMesh a b c) [0, 1, 2] 1 ≠ v3zero)
    (h2 : capCross (singleTriMesh a b c) [0, 1, 2] 2 ≠ v3zero)
    (hs0 : ¬s (norm2 (capCross (singleTriMesh a b c) [0, 1, 2] 0)) ≤ eps10)
    (hs1 : ¬s (norm2 (capCross (singleTriMesh a b c) [0, 1, 2] 1)) ≤ eps10)
    (hs2 : ¬s (norm2 (capCross (singleTriMesh a b c) [0, 1, 2] 2)) ≤ eps10) :
    ∃ out, addCaps s (singleTriMesh a b c) [0] = some out ∧
      out.length = 4 ∧
      out.drop 1 = capOneLoop s (singleTriMesh a b c) [0, 1, 2] 0 ∧
      (capOneLoop s (singleTriMesh a b c) [0, 1, 2] 0).length = 3 ∧
      ∀ e ∈ soupEdges out, (soupEdges out).count e = 2 := by
  have hE1 : addCaps s (singleTriMesh a b c) [0] =
      some (getTriangle s (singleTriMesh a b c) 0 ::
        ((capOneLoop s (singleTriMesh a b c) [0, 1, 2] 0 ++ []) ++ [])) := rfl
  rw [List.append_nil, List.append_nil] at hE1
  have hlen3 : (capOneLoop s (singleTriMesh a b c) [0, 1, 2] 0).length = 3 := by
    have := congrArg List.length
      (capOneLoop_single_edgeSets s a b c hs0 hs1 hs2)
    simpa using this
  have hab : a ≠ b := (cross_ne_zero_sep h0).1
  have haC : a ≠ loopCentroid (singleTriMesh a b c) [0, 1, 2] :=
    (cross_ne_zero_sep h0).2.1
  have hbC : b ≠ loopCentroid (singleTriMesh a b c) [0, 1, 2] :=
    (cross_ne_zero_sep h0).2.2
  have hbc : b ≠ c := (cross_ne_zero_sep h1).1
  have hcC : c ≠ loopCentroid (singleTriMesh a b c) [0, 1, 2] :=
    (cross_ne_zero_sep h1).2.2
  have hca : c ≠ a := (cross_ne_zero_sep h2).1
  have hsoup : soupEdges (getTriangle s (singleTriMesh a b c) 0 ::
      capOneLoop s (singleTriMesh a b c) [0, 1, 2] 0) =
      ({Sym2.mk (a, b), Sym2.mk (b, c), Sym2.mk (c, a)} : Multiset _) +
      ({Sym2.mk (loopCentroid (singleTriMesh a b c) [0, 1, 2], a),
          Sym2.mk (a, b),
          Sym2.mk (b, loopCentroid (singleTriMesh a b c) [0, 1, 2])} +
        ({Sym2.mk (loopCentroid (singleTriMesh a b c) [0, 1, 2], b),
            Sym2.mk (b, c),
            Sym2.mk (c, loopCentroid (singleTriMesh a b c) [0, 1, 2])} +
          ({Sym2.mk (loopCentroid (singleTriMesh a b c) [0, 1, 2], c),
              Sym2.mk (c, a),
              Sym2.mk (a, loopCentroid (singleTriMesh a b c) [0, 1, 2])} + 0))) := by
    unfold soupEdges
    rw [List.map_cons, capOneLoop_single_edgeSets s a b c hs0 hs1 hs2]
    rw [List.sum_cons, List.sum_cons, List.sum_cons, List.sum_cons,
      List.sum_nil]
    rfl
  refine ⟨_, hE1, by simp [hlen3], rfl, hlen3, ?_⟩
  intro e he
  rw [hsoup] at he ⊢
  simp only [Multiset.insert_eq_cons, Multiset.mem_add, Multiset.mem_cons,
    Multiset.mem_singleton, Multiset.not_mem_zero, or_false] at he
  rcases he with (he | he | he) | (he | he | he) | (he | he | he) | (he | he | he) <;>
    rw [he] <;>
    simp [Multiset.insert_eq_cons, Multiset.count_add, Multiset.count_cons,
      Multiset.count_singleton, Sym2.eq_iff, hab, hab.symm, hbc, hbc.symm,
      hca, hca.symm, haC, haC.symm, hbC, hbC.symm, hcC, hcC.symm]

/-- C5 witness: the concrete right triangle `(0,0,0), (1,0,0), (0,1,0)`. -/
theorem C5_single_triangle_capping_witness :
    ∃ out, addCaps ratSqrt
        (singleTriMesh ⟨0, 0, 0⟩ ⟨1, 0, 0⟩ ⟨0, 1, 0⟩) [0] = some out ∧
      out.length = 4 := by
  obtain ⟨out, hsome, hlen, -, -, -⟩ :=
    C5_single_triangle_capping ratSqrt ⟨0, 0, 0⟩ ⟨1, 0, 0⟩ ⟨0, 1, 0⟩
      (by with_unfolding_all decide) (by with_unfolding_all decide)
      (by with_unfolding_all decide) (by with_unfolding_all decide)
      (by with_unfolding_all decide) (by with_unfolding_all decide)
  exact ⟨out, hsome, hlen⟩

end StlTool
